import Mathlib

/-!
# HydroChrono wave-force subsystem (`src/src/wave_types.cpp`)

A shallow embedding of the wave-force providers of HydroChrono and proofs about them.

Conventions of the embedding.

* A C++ `double` is an element of an ordered field `α` with a floor function
  (`ℚ` for evaluation, `ℝ` where a transcendental value is needed), and the value of an
  arithmetic expression is taken exactly.  Where the source would divide by zero and then
  convert the quotient to an integer, the embedding fails instead.
* Where a property turns on the rounding of a double operation, the rounding is explicit.
  In `CreateFreeSurfaceElevation_time_index` and `RegularWave.freq_index_des` the integer
  part of a double fixes a count or an index, and every operation that feeds it is rounded
  by a parameter `fl`; `binary64` is the rounding of IEEE-754 double precision.  `Double`
  adds the infinities and NaN, and `PiersonMoskowitzSpectrumHz_binary64` is the spectrum
  evaluated with them.
* `cos`, `exp`, `sqrt`, the constant `M_PI` and the random generator are parameters.
* An `Eigen::VectorXd` or `std::vector<double>` is a `List α`, an `Eigen::MatrixXd` is the
  list of its rows, a rank-3 tensor is a list of lists of lists (`T[i][j][k]`).
* A read or write outside the bounds of a container is undefined behaviour in the source:
  the embedding returns `none`.  The same holds for a signed 32-bit overflow.
* `unsigned int` arithmetic is taken modulo `2 ^ 32`.
* A freshly constructed or resized Eigen vector has indeterminate contents: they are given
  by an arbitrary function `junk` of the index.
* A `for` loop over `0 .. n-1` that updates program state is `loop n body init`.
-/

set_option linter.unusedSectionVars false

namespace HydroChrono

variable {α : Type} [LinearOrderedField α] [FloorRing α]

/-! ## Generic building blocks -/

/-- The loop `for (i = 0; i < n; ++i) body(i)` over a state `σ`; it fails as soon as one
iteration fails. -/
def loop {σ : Type} (n : Nat) (body : Nat → σ → Option σ) (init : σ) : Option σ :=
  (List.range n).foldlM (fun s i => body i s) init

/-- The assignment `v[i] = x`; out of bounds it fails. -/
def writeAt {β : Type} (v : List β) (i : Nat) (x : β) : Option (List β) :=
  if i < v.length then some (v.set i x) else none

/-- The read `v[i]` at a signed index; out of bounds (negative included) it fails. -/
def readAt {β : Type} (v : List β) (i : Int) : Option β :=
  if 0 ≤ i then v[i.toNat]? else none

/-- The read `m(r, c)` of a matrix stored as the list of its rows. -/
def matAt {β : Type} (m : List (List β)) (r c : Nat) : Option β :=
  (m[r]?).bind (fun row => row[c]?)

/-- The read `T(i, j, k)` of a rank-3 tensor, the last index being a signed integer. -/
def tensorAt {β : Type} (T : List (List (List β))) (i j : Nat) (k : Int) : Option β :=
  ((T[i]?).bind (fun plane => plane[j]?)).bind (fun line => readAt line k)

/-- A vector of `n` entries whose contents are indeterminate (`junk i` at index `i`). -/
def uninitVec {β : Type} (junk : Nat → β) (n : Nat) : List β :=
  (List.range n).map junk

/-- A value stored in a C++ `int`: it must be below `2 ^ 31`. -/
def toInt32 (n : Nat) : Option Nat :=
  if n < 2 ^ 31 then some n else none

/-- The vector `Eigen::VectorXd::LinSpaced(size, low, high)` as Eigen documents it: `size`
equally spaced values in the closed interval `[low, high]`, the last one being `high` itself
(so a vector of size 1 holds `high`). -/
def LinSpaced (size : Nat) (low high : α) : List α :=
  (List.range size).map (fun i =>
    if i + 1 = size then high else low + (i : α) * ((high - low) / ((size : α) - 1)))

/-! ## Double-precision arithmetic

The rounding of IEEE-754 double precision and, in `Double`, its infinities and NaN.  The sign
of a zero is not distinguished (a zero counts as `+0`), and `std::pow` and `std::exp` are
taken as correctly rounded. -/

/-- Rounding of `q` to the nearest integer, a tie going to the even one. -/
def roundHalfEven (q : α) : Int :=
  if q - (⌊q⌋ : α) < 1 / 2 then ⌊q⌋
  else if 1 / 2 < q - (⌊q⌋ : α) then ⌊q⌋ + 1
  else if ⌊q⌋ % 2 = 0 then ⌊q⌋ else ⌊q⌋ + 1

/-- The binary64 rounding of the number `x`: to the nearest number with 53 significant bits,
ties to even, with gradual underflow below `2 ^ (-1022)`; the exponent is not bounded
above (overflow is handled in `Double.round`). -/
def binary64 (x : α) : α :=
  let e : Int := max (Int.log 2 |x|) (-1022)
  (roundHalfEven (x / 2 ^ (e - 52)) : α) * 2 ^ (e - 52)

/-- A value of type `double`: a finite number, an infinity or NaN. -/
inductive Double (α : Type) where
  | fin (x : α)
  | pinf
  | ninf
  | nan

/-- The double an operation returns when its exact result is `x`: the rounding of `x`, or
an infinity when the rounding reaches `2 ^ 1024`. -/
def Double.round (x : α) : Double α :=
  if 2 ^ 1024 ≤ |binary64 x| then (if 0 < x then .pinf else .ninf) else .fin (binary64 x)

/-- The product `a * b` of two doubles. -/
def Double.mul : Double α → Double α → Double α
  | .fin x, .fin y => Double.round (x * y)
  | .fin x, .pinf => if 0 < x then .pinf else if x < 0 then .ninf else .nan
  | .fin x, .ninf => if 0 < x then .ninf else if x < 0 then .pinf else .nan
  | .pinf, .fin y => if 0 < y then .pinf else if y < 0 then .ninf else .nan
  | .ninf, .fin y => if 0 < y then .ninf else if y < 0 then .pinf else .nan
  | .pinf, .pinf => .pinf
  | .pinf, .ninf => .ninf
  | .ninf, .pinf => .ninf
  | .ninf, .ninf => .pinf
  | .nan, _ => .nan
  | _, .nan => .nan

/-- The quotient `a / b` of two doubles. -/
def Double.div : Double α → Double α → Double α
  | .fin x, .fin y =>
    if y = 0 then (if 0 < x then .pinf else if x < 0 then .ninf else .nan)
    else Double.round (x / y)
  | .fin _, .pinf => .fin 0
  | .fin _, .ninf => .fin 0
  | .pinf, .fin y => if 0 ≤ y then .pinf else .ninf
  | .ninf, .fin y => if 0 ≤ y then .ninf else .pinf
  | .pinf, .pinf => .nan
  | .pinf, .ninf => .nan
  | .ninf, .pinf => .nan
  | .ninf, .ninf => .nan
  | .nan, _ => .nan
  | _, .nan => .nan

/-- The call `std::pow(d, n)` for an integer exponent `n`. -/
def Double.pow (d : Double α) (n : Int) : Double α :=
  if n = 0 then .fin 1 else
  match d with
  | .fin x => if x = 0 then (if n < 0 then .pinf else .fin 0) else Double.round (x ^ n)
  | .pinf => if 0 < n then .pinf else .fin 0
  | .ninf => if 0 < n then (if n % 2 = 0 then .pinf else .ninf) else .fin 0
  | .nan => .nan

/-- The call `std::exp(d)`; `exp` is the exponential function on finite arguments. -/
def Double.exp (exp : α → α) : Double α → Double α
  | .fin x => Double.round (exp x)
  | .pinf => .pinf
  | .ninf => .fin 0
  | .nan => .nan

/-- The comparison `d >= 0.0`: it holds of a finite number that is not negative and of
`+inf`, and fails for NaN. -/
def Double.nonneg : Double α → Prop
  | .fin x => 0 ≤ x
  | .pinf => True
  | .ninf => False
  | .nan => False

/-- The comparison `d <= 0.0`: it holds of a finite number that is not positive and of
`-inf`, and fails for NaN. -/
def Double.nonpos : Double α → Prop
  | .fin x => x ≤ 0
  | .pinf => False
  | .ninf => True
  | .nan => False

/-! ## `NoWave` -/

/-- Embedding of `NoWave::GetForceAtTime`: `dof` is an `unsigned int`, the counter `i` an
`int`, so the loop overflows `i` when `dof` is `2 ^ 31` or more. -/
def NoWave.GetForceAtTime (junk : Nat → α) (num_bodies : Nat) (_t : α) : Option (List α) :=
  let dof : Nat := (num_bodies * 6) % 2 ^ 32
  if dof < 2 ^ 31 then
    loop dof (fun i f => writeAt f i 0) (uninitVec junk dof)
  else none

/-! ## `RegularWave` -/

/-- The part of `HydroData::RegularWaveInfo` the provider reads. -/
structure RegularWaveInfo (α : Type) where
  freq_list : List α
  excitation_mag_matrix : List (List (List α))
  excitation_phase_matrix : List (List (List α))

/-- The data members of `RegularWave`. -/
structure RegularWave (α : Type) where
  num_bodies : Nat
  regular_wave_amplitude : α
  regular_wave_omega : α
  info : List (RegularWaveInfo α)
  excitation_force_mag : List α
  excitation_force_phase : List α
  force : List α

/-- Embedding of `RegularWave::GetOmegaDelta`: the last tabulated frequency of body 0 divided
by the number of tabulated frequencies. -/
def RegularWave.GetOmegaDelta (s : RegularWave α) : Option α := do
  let info0 ← s.info[0]?
  let omega_max ← readAt info0.freq_list ((info0.freq_list.length : Int) - 1)
  let num_freqs : α := (info0.freq_list.length : α)
  pure (omega_max / num_freqs)

/-- Embedding of `RegularWave::GetExcitationMagInterp`. -/
def RegularWave.GetExcitationMagInterp (s : RegularWave α) (b i j : Nat)
    (freq_index_des : α) : Option α := do
  let freq_interp_val := freq_index_des - (⌊freq_index_des⌋ : α)
  let infob ← s.info[b]?
  let excitationMagFloor ← tensorAt infob.excitation_mag_matrix i j ⌊freq_index_des⌋
  let excitationMagCeil ← tensorAt infob.excitation_mag_matrix i j (⌊freq_index_des⌋ + 1)
  pure (freq_interp_val * (excitationMagCeil - excitationMagFloor) + excitationMagFloor)

/-- Embedding of `RegularWave::GetExcitationPhaseInterp`. -/
def RegularWave.GetExcitationPhaseInterp (s : RegularWave α) (b i j : Nat)
    (freq_index_des : α) : Option α := do
  let freq_interp_val := freq_index_des - (⌊freq_index_des⌋ : α)
  let infob ← s.info[b]?
  let excitationPhaseFloor ← tensorAt infob.excitation_phase_matrix i j ⌊freq_index_des⌋
  let excitationPhaseCeil ← tensorAt infob.excitation_phase_matrix i j (⌊freq_index_des⌋ + 1)
  pure (freq_interp_val * (excitationPhaseCeil - excitationPhaseFloor) + excitationPhaseFloor)

/-- Embedding of `RegularWave::Initialize`.  The loop state is the pair
`(excitation_force_mag, excitation_force_phase)`; the other members are not written. -/
def RegularWave.Initialize (junk : Nat → α) (s : RegularWave α) : Option (RegularWave α) := do
  let total_dofs ← toInt32 ((6 * s.num_bodies) % 2 ^ 32)
  let wave_omega_delta ← s.GetOmegaDelta
  if wave_omega_delta = 0 then none else
  let freq_index_des := s.regular_wave_omega / wave_omega_delta - 1
  let (mag, phase) ← loop s.num_bodies (fun b st =>
      loop 6 (fun rowEx st => do
        let body_offset ← toInt32 (6 * b)
        let idx ← toInt32 (body_offset + rowEx)
        let m ← s.GetExcitationMagInterp b rowEx 0 freq_index_des
        let mag' ← writeAt st.1 idx m
        let p ← s.GetExcitationPhaseInterp b rowEx 0 freq_index_des
        let phase' ← writeAt st.2 idx p
        pure (mag', phase')) st)
    (uninitVec junk total_dofs, uninitVec junk total_dofs)
  pure { s with
    excitation_force_mag := mag
    excitation_force_phase := phase
    force := uninitVec junk total_dofs }

/-- The local `freq_index_des` of `RegularWave::Initialize`,
`(regular_wave_omega / wave_omega_delta) - 1` with `wave_omega_delta = omega_max / num_freqs`
from `GetOmegaDelta`, each of the three double operations rounded by `fl`.  With `fl` the
identity it is the value `RegularWave.Initialize` hands to the two interpolations. -/
def RegularWave.freq_index_des (fl : α → α) (s : RegularWave α) : Option α := do
  let info0 ← s.info[0]?
  let omega_max ← readAt info0.freq_list ((info0.freq_list.length : Int) - 1)
  let num_freqs : α := (info0.freq_list.length : α)
  let wave_omega_delta := fl (omega_max / num_freqs)
  if wave_omega_delta = 0 then none else
  pure (fl (fl (s.regular_wave_omega / wave_omega_delta) - 1))

/-- Embedding of `RegularWave::GetForceAtTime`.  The magnitude is read at
`body_offset + rowEx`, the phase at `rowEx`, as in the source. -/
def RegularWave.GetForceAtTime (cos : α → α) (junk : Nat → α) (s : RegularWave α) (t : α) :
    Option (List α) :=
  let dof : Nat := (s.num_bodies * 6) % 2 ^ 32
  loop s.num_bodies (fun b f => do
      let body_offset ← toInt32 (6 * b)
      loop 6 (fun rowEx f => do
        let idx ← toInt32 (body_offset + rowEx)
        let mag ← s.excitation_force_mag[idx]?
        let phase ← s.excitation_force_phase[rowEx]?
        writeAt f idx (mag * s.regular_wave_amplitude * cos (s.regular_wave_omega * t + phase))) f)
    (uninitVec junk dof)

/-! ## `IrregularWave` -/

/-- The part of `HydroData::IrregularWaveInfo` the provider reads. -/
structure IrregularWaveInfo (α : Type) where
  excitation_irf_time : List α
  excitation_irf_matrix : List (List α)

/-- The data members of `IrregularWave`. -/
structure IrregularWave (α : Type) where
  num_bodies : Nat
  simulation_dt : α
  simulation_duration : α
  wave_height : α
  wave_period : α
  info : List (IrregularWaveInfo α)
  spectrum_frequencies : List α
  spectral_densities : List α
  eta : List α
  ex_irf_resampled : List (List (List α))
  ex_irf_time_resampled : List (List α)

/-- Embedding of `IrregularWave::ResampleTime`.  The conversion
`static_cast<int>(ceil(..))` needs a value in the range of `int`, and `LinSpaced` a size that
is not negative.  Before it returns, the function prints `t_old[0]`, `t_old[N]`, `t_new[0]`
and `t_new[N]` with `N = t_old.size() - 1`: the four reads are part of the embedding, so the
call has no result when the new axis has fewer samples than the old one. -/
def IrregularWave.ResampleTime (t_old : List α) (dt_new : α) : Option (List α) := do
  let t1 ← t_old[1]?
  let t0 ← t_old[0]?
  let dt_old := t1 - t0
  if dt_new = 0 then none else
  let size_new : Int := ⌈(t_old.length : α) * dt_old / dt_new⌉
  if 0 ≤ size_new ∧ size_new < 2 ^ 31 then
    let t_final := ((t_old.length : α) - 1) * dt_old
    let t_new := LinSpaced size_new.toNat 0 t_final
    let N : Int := (t_old.length : Int) - 1
    let _ ← readAt t_old 0
    let _ ← readAt t_old N
    let _ ← readAt t_new 0
    let _ ← readAt t_new N
    pure t_new
  else none

/-- Embedding of `IrregularWave::ExcitationConvolution`.  The lag axis is the one of body 0,
the impulse response the one of `body`; `eta_index` is a `size_t`, and `eta_index - 1` is
the index handed to `eta[..]` (for `eta_index = 0` it is out of bounds). -/
def IrregularWave.ExcitationConvolution (s : IrregularWave α) (body dof : Nat) (time : α) :
    Option α := do
  let taus ← s.ex_irf_time_resampled[0]?
  loop taus.length (fun j f_ex => do
      let tau ← taus[j]?
      let t_tau := time - tau
      let ex_irf_val ← (s.ex_irf_resampled[body]?).bind (fun m => matAt m dof j)
      if 0 < t_tau ∧ t_tau < (s.eta.length : α) * s.simulation_dt then do
        let eta_index : Nat := ⌊t_tau / s.simulation_dt⌋.toNat
        let eta_val ← readAt s.eta ((eta_index : Int) - 1)
        pure (f_ex + ex_irf_val * eta_val * s.simulation_dt)
      else pure f_ex)
    0

/-- Embedding of `PiersonMoskowitzSpectrumHz`.  The argument `f` is taken by reference and
sorted in place, so the result is the pair of the grid after the call and the returned
densities.  A zero `Tp` or a zero frequency gives a non-finite double: the embedding fails. -/
def PiersonMoskowitzSpectrumHz (exp : α → α) (f : List α) (Hs Tp : α) :
    Option (List α × List α) :=
  let f_sorted := f.insertionSort (fun a b => a ≤ b)
  if Tp = 0 ∨ (0 : α) ∈ f_sorted then none else
  some (f_sorted, f_sorted.map (fun fi =>
    1.25 * (1 / Tp) ^ 4 * (Hs / 2) ^ 2 * fi ^ (-5 : ℤ) *
      exp (-1.25 * (1 / Tp) ^ 4 * fi ^ (-4 : ℤ))))

/-- The factor to the left of `std::exp` in `PiersonMoskowitzSpectrumHz`,
`1.25 * std::pow(1 / Tp, 4) * std::pow(Hs / 2, 2) * std::pow(f[i], -5)`, evaluated in double
arithmetic from left to right. -/
def PiersonMoskowitzSpectrumHz_magnitude (Hs Tp fi : α) : Double α :=
  (((Double.fin 1.25).mul (((Double.fin 1).div (.fin Tp)).pow 4)).mul
    (((Double.fin Hs).div (.fin 2)).pow 2)).mul ((Double.fin fi).pow (-5))

/-- The argument of `std::exp` in `PiersonMoskowitzSpectrumHz`,
`-1.25 * std::pow(1 / Tp, 4) * std::pow(f[i], -4)`, evaluated in double arithmetic from left
to right. -/
def PiersonMoskowitzSpectrumHz_exponent (Tp fi : α) : Double α :=
  ((Double.fin (-1.25)).mul (((Double.fin 1).div (.fin Tp)).pow 4)).mul
    ((Double.fin fi).pow (-4))

/-- Embedding of `PiersonMoskowitzSpectrumHz` in double arithmetic: the grid after the
in-place sort and the densities as doubles, infinities and NaN included. -/
def PiersonMoskowitzSpectrumHz_binary64 (exp : α → α) (f : List α) (Hs Tp : α) :
    List α × List (Double α) :=
  let f_sorted := f.insertionSort (fun a b => a ≤ b)
  (f_sorted, f_sorted.map (fun fi =>
    (PiersonMoskowitzSpectrumHz_magnitude Hs Tp fi).mul
      ((PiersonMoskowitzSpectrumHz_exponent Tp fi).exp exp)))

/-- The loop `for (i = 0; i < phases.size(); ++i) phases[i] = dist(rng)` of
`FreeSurfaceElevation`; the state is the vector of phases and the generator. -/
def drawPhases {σ : Type} (dist : σ → α × σ) (n : Nat) (rng : σ) : Option (List α × σ) :=
  loop n (fun i st => do
      let phases ← writeAt st.1 i (dist st.2).1
      pure (phases, (dist st.2).2))
    (List.replicate n 0, rng)

/-- Embedding of `FreeSurfaceElevation`.  `mkRng seed` is `std::mt19937 rng(seed)` and
`dist g` is one evaluation `dist(rng)` of the uniform distribution on `[0, 2π)`: the value
drawn and the generator afterwards.  The loops that fill `omegas`, `A`, `sqrt_A` and
`omegas_t` entry by entry are maps. -/
def FreeSurfaceElevation {σ : Type} (sqrt cos : α → α) (pi : α) (mkRng : Int → σ)
    (dist : σ → α × σ) (freqs_hz spectral_densities time_index : List α) (seed : Int) :
    Option (List α) := do
  let f_last ← readAt freqs_hz ((freqs_hz.length : Int) - 1)
  let delta_f := f_last / (freqs_hz.length : α)
  let omegas := freqs_hz.map (fun f => 2 * pi * f)
  let A := spectral_densities.map (fun S => 2 * S * delta_f)
  let sqrt_A := A.map sqrt
  let omegas_t := time_index.map (fun t => omegas.map (fun w => t * w))
  let (phases, _) ← drawPhases dist omegas.length (mkRng seed)
  loop spectral_densities.length (fun i eta =>
      loop time_index.length (fun j eta => do
        let a ← sqrt_A[i]?
        let wt ← matAt omegas_t j i
        let ph ← phases[i]?
        let e ← eta[j]?
        writeAt eta j (e + a * cos (wt + ph))) eta)
    (List.replicate time_index.length 0)

/-- The first `n` values drawn from a generator, in the order they are drawn. -/
def draws {σ : Type} (dist : σ → α × σ) : Nat → σ → List α
  | 0, _ => []
  | n + 1, g => (dist g).1 :: draws dist n (dist g).2

/-! ## `IrregularWave`: initialisation -/

/-- A loop `for (i ..) out[i] = g(in[i])` whose iterations can fail: the list of the results
when every iteration succeeds. -/
def mapOpt {β γ : Type} (g : β → Option γ) : List β → Option (List γ)
  | [] => some []
  | x :: xs => (g x).bind fun y => (mapOpt g xs).bind fun ys => some (y :: ys)

/-- The conversion `static_cast<int>(x)` of a double: truncation toward zero, defined when
the result is in the range of `int`. -/
def truncToInt (x : α) : Option Int :=
  let z : Int := if 0 ≤ x then ⌊x⌋ else ⌈x⌉
  if -(2 : Int) ^ 31 ≤ z ∧ z < 2 ^ 31 then some z else none

/-- Embedding of `IrregularWave::ResampleVals`.  The parameter
`Interpolate pts degree knot_parameters` stands for Eigen's
`SplineFitting<Spline<double, 1>>::Interpolate`, which is library code: it returns the fitted
spline as its evaluation function `t ↦ spline(t)[0]`, and either step can fail.  The only
check the function makes itself is `assert(vals_old.rows() == 6)`.  Of the two diagnostic
files it writes, `resample.txt` takes entries of `t_new` and `vals_new` that exist, and
`compare.txt` takes `vals_old(dof, i)` for every `i < t_old.size()`: these reads are part of
the embedding, so the call has no result when a row is shorter than `t_old`. -/
def IrregularWave.ResampleVals (Interpolate : List α → Nat → List α → Option (α → Option α))
    (t_old : List α) (vals_old : List (List α)) (t_new : List α) : Option (List (List α)) := do
  if vals_old.length ≠ 6 then none else
  let t1 ← t_old[1]?
  let t0 ← t_old[0]?
  let dt_old := t1 - t0
  let t_old_shifted := LinSpaced t_old.length 0 (((t_old.length : α) - 1) * dt_old)
  let vals_new ← mapOpt (fun dof => do
      let row ← vals_old[dof]?
      let spline ← Interpolate row 3 t_old_shifted
      mapOpt spline t_new)
    (List.range 6)
  let _ ← mapOpt (fun i => mapOpt (fun dof => matAt vals_old dof i) (List.range 6))
    (List.range t_old.length)
  pure vals_new

/-- Embedding of `IrregularWave::CreateSpectrum`: the call sorts `spectrum_frequencies` in
place and stores the densities. -/
def IrregularWave.CreateSpectrum (exp : α → α) (s : IrregularWave α) :
    Option (IrregularWave α) := do
  let r ← PiersonMoskowitzSpectrumHz exp s.spectrum_frequencies s.wave_height s.wave_period
  pure { s with spectrum_frequencies := r.1, spectral_densities := r.2 }

/-- The local `time_index` of `IrregularWave::CreateFreeSurfaceElevation`:
`LinSpaced(num_timesteps, 0, simulation_duration)` with
`num_timesteps = static_cast<int>(simulation_duration / simulation_dt) + 1`; `fl` is the
rounding of the double quotient. -/
def IrregularWave.CreateFreeSurfaceElevation_time_index (fl : α → α) (s : IrregularWave α) :
    Option (List α) := do
  if s.simulation_dt = 0 then none else
  let q ← truncToInt (fl (s.simulation_duration / s.simulation_dt))
  let num_timesteps : Int := q + 1
  if 0 ≤ num_timesteps ∧ num_timesteps < 2 ^ 31 then
    pure (LinSpaced num_timesteps.toNat 0 s.simulation_duration)
  else none

/-- Embedding of `IrregularWave::CreateFreeSurfaceElevation`; `seed` is the default value of
the fourth argument of `FreeSurfaceElevation`, declared in the header. -/
def IrregularWave.CreateFreeSurfaceElevation {σ : Type} (fl sqrt cos : α → α) (pi : α)
    (mkRng : Int → σ) (dist : σ → α × σ) (seed : Int) (s : IrregularWave α) :
    Option (IrregularWave α) := do
  let time_index ← s.CreateFreeSurfaceElevation_time_index fl
  let eta ← FreeSurfaceElevation sqrt cos pi mkRng dist s.spectrum_frequencies
    s.spectral_densities time_index seed
  pure { s with eta := eta }

/-- Embedding of `IrregularWave::Initialize`.  The first loop reads `info[b]` for every body,
the second resamples the lag axis and the impulse response of every body. -/
def IrregularWave.Initialize {σ : Type}
    (Interpolate : List α → Nat → List α → Option (α → Option α)) (fl exp sqrt cos : α → α)
    (pi : α) (mkRng : Int → σ) (dist : σ → α × σ) (seed : Int) (s : IrregularWave α) :
    Option (IrregularWave α) := do
  let num ← toInt32 s.num_bodies
  let olds ← mapOpt (fun b => s.info[b]?) (List.range num)
  let resampled ← mapOpt (fun (infob : IrregularWaveInfo α) => do
      let t_new ← IrregularWave.ResampleTime infob.excitation_irf_time s.simulation_dt
      let vals_new ← IrregularWave.ResampleVals Interpolate infob.excitation_irf_time
        infob.excitation_irf_matrix t_new
      pure (t_new, vals_new))
    olds
  let s1 : IrregularWave α := { s with
    ex_irf_resampled := resampled.map Prod.snd
    ex_irf_time_resampled := resampled.map Prod.fst }
  let s2 ← s1.CreateSpectrum exp
  s2.CreateFreeSurfaceElevation fl sqrt cos pi mkRng dist seed

/-- An irregular provider with one body: lag axis `[0, 1]`, `simulation_dt = 1`, elevation
history `[1, 2, 3]` and an impulse response of ones. -/
def unitLagState : IrregularWave ℚ where
  num_bodies := 1
  simulation_dt := 1
  simulation_duration := 2
  wave_height := 1
  wave_period := 1
  info := []
  spectrum_frequencies := []
  spectral_densities := []
  eta := [1, 2, 3]
  ex_irf_resampled := [List.replicate 6 [1, 1]]
  ex_irf_time_resampled := [[0, 1]]

/-- An irregular provider with one body whose lag axis `[0, 1, 2, 3]` is the one
`ResampleTime` returns for the original axis `[0, 1, 2, 3]` and `simulation_dt = 1`; five
elevation samples, impulse response of ones. -/
def fourLagState : IrregularWave ℚ where
  num_bodies := 1
  simulation_dt := 1
  simulation_duration := 4
  wave_height := 1
  wave_period := 1
  info := []
  spectrum_frequencies := []
  spectral_densities := []
  eta := [1, 2, 3, 4, 5]
  ex_irf_resampled := [List.replicate 6 [1, 1, 1, 1]]
  ex_irf_time_resampled := [[0, 1, 2, 3]]

/-- A regular provider with two bodies, unit amplitude, frequency and magnitudes, phase 0
for the six degrees of freedom of body 0 and phase `p` for those of body 1. -/
def twoBodyRegular (p : α) : RegularWave α where
  num_bodies := 2
  regular_wave_amplitude := 1
  regular_wave_omega := 1
  info := []
  excitation_force_mag := List.replicate 12 1
  excitation_force_phase := List.replicate 6 0 ++ List.replicate 6 p
  force := []

/-- Tabulated data of one body: frequencies `1, 2, 3`, and for every degree of freedom the
magnitudes `10, 20, 30` and the phases `0, 1, 2` (one forcing direction). -/
def tabulatedInfo : RegularWaveInfo ℚ where
  freq_list := [1, 2, 3]
  excitation_mag_matrix := List.replicate 6 [[10, 20, 30]]
  excitation_phase_matrix := List.replicate 6 [[0, 1, 2]]

/-- A regular provider with one body, three tabulated frequencies `1, 2, 3`, target
frequency `5/2`, and for every degree of freedom the magnitudes `10, 20, 30` and the phases
`0, 1, 2`. -/
def tabulatedRegular : RegularWave ℚ where
  num_bodies := 1
  regular_wave_amplitude := 1
  regular_wave_omega := 5 / 2
  info := [tabulatedInfo]
  excitation_force_mag := []
  excitation_force_phase := []
  force := []

/-- Tabulated data of one body with 7 frequencies, the last one the double nearest to 0.9
(`8106479329266893 / 2 ^ 53`), and for every degree of freedom the magnitudes `1 .. 7`. -/
def nearTopInfo : RegularWaveInfo ℚ where
  freq_list := [1 / 8, 1 / 4, 3 / 8, 1 / 2, 5 / 8, 3 / 4, 8106479329266893 / 2 ^ 53]
  excitation_mag_matrix := List.replicate 6 [[1, 2, 3, 4, 5, 6, 7]]
  excitation_phase_matrix := List.replicate 6 [[0, 0, 0, 0, 0, 0, 0]]

/-- A regular provider whose target frequency is the highest tabulated frequency of
`nearTopInfo`, the double nearest to 0.9. -/
def nearTopRegular : RegularWave ℚ where
  num_bodies := 1
  regular_wave_amplitude := 1
  regular_wave_omega := 8106479329266893 / 2 ^ 53
  info := [nearTopInfo]
  excitation_force_mag := []
  excitation_force_phase := []
  force := []

/-- Tabulated data of one body with 3 frequencies, the last one the double nearest to 0.1
(`3602879701896397 / 2 ^ 55`), and for every degree of freedom the magnitudes `1, 2, 3`. -/
def belowTopInfo : RegularWaveInfo ℚ where
  freq_list := [1 / 32, 1 / 16, 3602879701896397 / 2 ^ 55]
  excitation_mag_matrix := List.replicate 6 [[1, 2, 3]]
  excitation_phase_matrix := List.replicate 6 [[0, 0, 0]]

/-- A regular provider whose target frequency is the double just below the highest
tabulated frequency of `belowTopInfo` (`7205759403792793 / 2 ^ 56`). -/
def belowTopRegular : RegularWave ℚ where
  num_bodies := 1
  regular_wave_amplitude := 1
  regular_wave_omega := 7205759403792793 / 2 ^ 56
  info := [belowTopInfo]
  excitation_force_mag := []
  excitation_force_phase := []
  force := []

/-- An irregular provider with one body and nothing computed yet, for a given time step and
duration. -/
def blankIrregular (dt duration : α) : IrregularWave α where
  num_bodies := 1
  simulation_dt := dt
  simulation_duration := duration
  wave_height := 1
  wave_period := 1
  info := []
  spectrum_frequencies := []
  spectral_densities := []
  eta := []
  ex_irf_resampled := []
  ex_irf_time_resampled := []

/-- An irregular provider with two bodies whose resampled lag axes differ in length:
`[0, 1, 2]` for body 0 (what `ResampleTime` returns for `[0, 1, 2]` at `simulation_dt = 1`)
and `[0, 1]` for body 1 (from `[0, 1]`), each impulse response having a column per sample of
its own axis; five elevation samples. -/
def unevenLagState : IrregularWave ℚ where
  num_bodies := 2
  simulation_dt := 1
  simulation_duration := 4
  wave_height := 1
  wave_period := 1
  info := []
  spectrum_frequencies := []
  spectral_densities := []
  eta := [1, 2, 3, 4, 5]
  ex_irf_resampled := [List.replicate 6 [1, 1, 1], List.replicate 6 [1, 1]]
  ex_irf_time_resampled := [[0, 1, 2], [0, 1]]

/-! ## Lemmas on loops and indexed writes -/

/-- Invariant rule for `loop`: an invariant that holds initially and is carried by every
iteration (which must succeed) holds of the state the loop returns. -/
theorem loop_inv {σ : Type} (P : Nat → σ → Prop) (n : Nat) (body : Nat → σ → Option σ)
    (init : σ) (h0 : P 0 init)
    (hstep : ∀ i s, i < n → P i s → ∃ s', body i s = some s' ∧ P (i + 1) s') :
    ∃ s', loop n body init = some s' ∧ P n s' := by
  induction n with
  | zero => exact ⟨init, by simp [loop], h0⟩
  | succ k ih =>
    obtain ⟨s1, hs1, hP1⟩ := ih (fun i s hi hP => hstep i s (Nat.lt_succ_of_lt hi) hP)
    obtain ⟨s2, hs2, hP2⟩ := hstep k s1 (Nat.lt_succ_self k) hP1
    refine ⟨s2, ?_, hP2⟩
    unfold loop at hs1 ⊢
    rw [List.range_succ, List.foldlM_append, hs1]
    simp [hs2]

/-- Invariant rule with a postcondition: the form used to verify a loop in place. -/
theorem loop_rule {σ : Type} (P : Nat → σ → Prop) (R : σ → Prop) (n : Nat)
    (body : Nat → σ → Option σ) (init : σ) (h0 : P 0 init)
    (hstep : ∀ i s, i < n → P i s → ∃ s', body i s = some s' ∧ P (i + 1) s')
    (hpost : ∀ s, P n s → R s) :
    ∃ s', loop n body init = some s' ∧ R s' := by
  obtain ⟨s', hs', hP⟩ := loop_inv P n body init h0 hstep
  exact ⟨s', hs', hpost s' hP⟩

/-- Invariant rule for a loop followed by a continuation. -/
theorem loop_rule_bind {σ τ : Type} (P : Nat → σ → Prop) (R : τ → Prop) (n : Nat)
    (body : Nat → σ → Option σ) (init : σ) (k : σ → Option τ) (h0 : P 0 init)
    (hstep : ∀ i s, i < n → P i s → ∃ s', body i s = some s' ∧ P (i + 1) s')
    (hpost : ∀ s, P n s → ∃ r, k s = some r ∧ R r) :
    ∃ r, (loop n body init).bind k = some r ∧ R r := by
  obtain ⟨s', hs', hP⟩ := loop_inv P n body init h0 hstep
  obtain ⟨r, hr, hR⟩ := hpost s' hP
  exact ⟨r, by rw [hs', Option.some_bind, hr], hR⟩

/-- Two loops whose bodies agree on every index below the bound return the same. -/
theorem loop_congr {σ : Type} (n : Nat) (body1 body2 : Nat → σ → Option σ) (init : σ)
    (h : ∀ i s, i < n → body1 i s = body2 i s) :
    loop n body1 init = loop n body2 init := by
  induction n with
  | zero => simp [loop]
  | succ k ih =>
    have ih1 := ih (fun i s hi => h i s (Nat.lt_succ_of_lt hi))
    unfold loop at ih1 ⊢
    rw [List.range_succ, List.foldlM_append, List.foldlM_append, ih1]
    cases hk : List.foldlM (fun s i => body2 i s) init (List.range k) with
    | none => rfl
    | some s => simp [h k s (Nat.lt_succ_self k)]

/-- A loop whose every iteration adds `v i` to the accumulator returns the initial value
plus the sum of the `v i`. -/
theorem loop_sum {β : Type} [AddCommMonoid β] (n : Nat) (body : Nat → β → Option β)
    (v : Nat → β) (init : β) (h : ∀ i acc, i < n → body i acc = some (acc + v i)) :
    loop n body init = some (init + ∑ i ∈ Finset.range n, v i) := by
  induction n with
  | zero => simp [loop]
  | succ k ih =>
    have ih1 := ih (fun i acc hi => h i acc (Nat.lt_succ_of_lt hi))
    unfold loop at ih1 ⊢
    rw [List.range_succ, List.foldlM_append, ih1]
    simp [h k _ (Nat.lt_succ_self k), Finset.sum_range_succ, add_assoc]

/-- A loop of at least one iteration whose first iteration fails has no result. -/
theorem loop_none_of_first {σ : Type} (n : Nat) (body : Nat → σ → Option σ) (init : σ)
    (hn : 1 ≤ n) (h : body 0 init = none) : loop n body init = none := by
  obtain ⟨k, rfl⟩ : ∃ k, n = k + 1 := ⟨n - 1, by omega⟩
  unfold loop
  rw [List.range_succ_eq_map, List.foldlM_cons, h]
  rfl

/-- An in-bounds write succeeds with the updated list. -/
theorem writeAt_of_lt {β : Type} (v : List β) (i : Nat) (x : β) (h : i < v.length) :
    writeAt v i x = some (v.set i x) := by
  simp [writeAt, h]

/-- An in-bounds read at a signed index is the read at the natural index. -/
theorem readAt_natCast {β : Type} (v : List β) (i : Nat) : readAt v (i : Int) = v[i]? := by
  simp [readAt]

/-! ## Lemmas on double-precision rounding -/

/-- An integer closer than one half to `q` is the rounding of `q`. -/
theorem roundHalfEven_of_near (q : α) (n : Int) (h : |q - (n : α)| < 1 / 2) :
    roundHalfEven q = n := by
  obtain ⟨h1, h2⟩ := abs_lt.mp h
  unfold roundHalfEven
  by_cases hq : (n : α) ≤ q
  · have hf : ⌊q⌋ = n := by
      rw [Int.floor_eq_iff]
      constructor
      · exact hq
      · linarith
    rw [hf, if_pos (by linarith)]
  · have hf : ⌊q⌋ = n - 1 := by
      rw [Int.floor_eq_iff]
      push_cast
      constructor
      · linarith
      · linarith [not_le.mp hq]
    rw [hf]
    push_cast
    rw [if_neg (by linarith), if_pos (by linarith)]
    omega

/-- An integer rounds to itself. -/
theorem roundHalfEven_intCast (n : Int) : roundHalfEven (n : α) = n :=
  roundHalfEven_of_near _ n (by simp)

/-- The rounding of a number that is not negative is not negative. -/
theorem roundHalfEven_nonneg (q : α) (h : 0 ≤ q) : 0 ≤ roundHalfEven q := by
  have hf : 0 ≤ ⌊q⌋ := Int.floor_nonneg.mpr h
  unfold roundHalfEven
  split_ifs <;> omega

/-- The rounding of a number that is not positive is not positive. -/
theorem roundHalfEven_nonpos (q : α) (h : q ≤ 0) : roundHalfEven q ≤ 0 := by
  have hf : ⌊q⌋ ≤ 0 := by
    have := Int.floor_le q
    have h2 : ((⌊q⌋ : Int) : α) ≤ ((0 : Int) : α) := by
      push_cast
      linarith
    exact_mod_cast h2
  unfold roundHalfEven
  by_cases h1 : q - (⌊q⌋ : α) < 1 / 2
  · rw [if_pos h1]
    exact hf
  · have hne : ⌊q⌋ ≠ 0 := by
      intro h0
      rw [h0] at h1
      push_cast at h1
      apply h1
      linarith
    rw [if_neg h1]
    split_ifs <;> omega

/-- Rounding to the nearest integer moves a number by at most one half. -/
theorem abs_roundHalfEven_sub_le (q : α) : |(roundHalfEven q : α) - q| ≤ 1 / 2 := by
  have h1 := Int.floor_le q
  have h2 := Int.lt_floor_add_one q
  unfold roundHalfEven
  rw [abs_le]
  split_ifs with a b c
  · constructor <;> linarith
  · push_cast
    constructor <;> linarith
  · constructor <;> linarith
  · push_cast
    constructor <;> linarith

/-- The binary exponent of a number in `[2 ^ e, 2 ^ (e + 1))` is `e`. -/
theorem log2_eq (x : α) (e : Int) (h1 : (2 : α) ^ e ≤ x) (h2 : x < 2 ^ (e + 1)) :
    Int.log 2 x = e := by
  have hx : 0 < x := lt_of_lt_of_le (zpow_pos (by norm_num) e) h1
  have ha : e ≤ Int.log 2 x := by
    apply (Int.zpow_le_iff_le_log (by norm_num) hx).mp
    exact_mod_cast h1
  have hb : Int.log 2 x < e + 1 := by
    apply (Int.lt_zpow_iff_log_lt (by norm_num) hx).mp
    exact_mod_cast h2
  omega

/-- Evaluation of `binary64`: for `|x|` in `[2 ^ e, 2 ^ (e + 1))` with `e >= -1022`, an integer `n`
closer than one half to `x / 2 ^ (e - 52)` gives the rounding `n * 2 ^ (e - 52)`. -/
theorem binary64_of_near (x : α) (e n : Int) (he : -1022 ≤ e) (h1 : (2 : α) ^ e ≤ |x|)
    (h2 : |x| < 2 ^ (e + 1)) (h3 : |x / 2 ^ (e - 52) - (n : α)| < 1 / 2) :
    binary64 x = (n : α) * 2 ^ (e - 52) := by
  unfold binary64
  rw [log2_eq |x| e h1 h2, max_eq_left he]
  simp only
  rw [roundHalfEven_of_near _ n h3]

/-- Zero rounds to zero. -/
theorem binary64_zero : binary64 (0 : α) = 0 := by
  unfold binary64
  simp only [zero_div]
  have h : roundHalfEven (0 : α) = 0 := by
    have := roundHalfEven_intCast (α := α) 0
    simpa using this
  rw [h]
  simp

/-- A number `m * 2 ^ k` with `|m| < 2 ^ 53` and `k >= -1074` is a binary64 number (up to the bound
on the exponent): it rounds to itself. -/
theorem binary64_representable (m k : Int) (hm : |m| < 2 ^ 53) (hk : -1074 ≤ k) :
    binary64 ((m : α) * 2 ^ k) = (m : α) * 2 ^ k := by
  by_cases h0 : m = 0
  · subst h0
    simp [binary64_zero]
  have h2pos : ∀ z : Int, (0 : α) < 2 ^ z := fun z => zpow_pos (by norm_num) z
  have hxpos : 0 < |(m : α) * 2 ^ k| := by
    rw [abs_pos]
    exact mul_ne_zero (Int.cast_ne_zero.mpr h0) (ne_of_gt (h2pos k))
  have hlt : |(m : α) * 2 ^ k| < 2 ^ (53 + k) := by
    rw [abs_mul, abs_of_pos (h2pos k), zpow_add₀ (by norm_num : (2 : α) ≠ 0)]
    apply mul_lt_mul_of_pos_right _ (h2pos k)
    have : ((|m| : Int) : α) < ((2 ^ 53 : Int) : α) := by exact_mod_cast hm
    push_cast at this
    exact_mod_cast this
  have hL : Int.log 2 |(m : α) * 2 ^ k| < 53 + k := by
    apply (Int.lt_zpow_iff_log_lt (by norm_num) hxpos).mp
    exact_mod_cast hlt
  have hek : max (Int.log 2 |(m : α) * 2 ^ k|) (-1022) - 52 ≤ k := by
    have := max_le (a := Int.log 2 |(m : α) * 2 ^ k|) (b := -1022) (c := k + 52)
      (by omega) (by omega)
    omega
  unfold binary64
  simp only
  generalize max (Int.log 2 |(m : α) * 2 ^ k|) (-1022) = e at hek
  obtain ⟨d, hd⟩ : ∃ d : Nat, k = (e - 52) + (d : Int) := ⟨(k - (e - 52)).toNat, by omega⟩
  have hq : (m : α) * 2 ^ k / 2 ^ (e - 52) = ((m * 2 ^ d : Int) : α) := by
    rw [hd, zpow_add₀ (by norm_num : (2 : α) ≠ 0), zpow_natCast]
    push_cast
    field_simp
    ring
  rw [hq, roundHalfEven_intCast, hd, zpow_add₀ (by norm_num : (2 : α) ≠ 0), zpow_natCast]
  push_cast
  ring

/-- Rounding keeps a number that is not negative so. -/
theorem binary64_nonneg (x : α) (h : 0 ≤ x) : 0 ≤ binary64 x := by
  unfold binary64
  simp only
  apply mul_nonneg _ (zpow_pos (by norm_num) _).le
  have := roundHalfEven_nonneg (x / 2 ^ (max (Int.log 2 |x|) (-1022) - 52))
    (div_nonneg h (zpow_pos (by norm_num) _).le)
  exact_mod_cast this

/-- Rounding keeps a number that is not positive so. -/
theorem binary64_nonpos (x : α) (h : x ≤ 0) : binary64 x ≤ 0 := by
  unfold binary64
  simp only
  apply mul_nonpos_of_nonpos_of_nonneg _ (zpow_pos (by norm_num) _).le
  have := roundHalfEven_nonpos (x / 2 ^ (max (Int.log 2 |x|) (-1022) - 52))
    (div_nonpos_of_nonpos_of_nonneg h (zpow_pos (by norm_num) _).le)
  exact_mod_cast this

/-- A number of absolute value at most 1 rounds to a number of absolute value at most 2. -/
theorem abs_binary64_le_two (x : α) (h : |x| ≤ 1) : |binary64 x| ≤ 2 := by
  have he : max (Int.log 2 |x|) (-1022) ≤ 0 := by
    apply max_le _ (by norm_num)
    by_cases h0 : x = 0
    · subst h0
      simp [Int.log_zero_right]
    · have := Int.log_mono_right (b := 2) (abs_pos.mpr h0) h
      rw [Int.log_one_right] at this
      exact this
  unfold binary64
  simp only
  generalize max (Int.log 2 |x|) (-1022) = e at he
  have hu : (0 : α) < 2 ^ (e - 52) := zpow_pos (by norm_num) _
  have hu1 : (2 : α) ^ (e - 52) ≤ 1 := by
    apply zpow_le_one_of_nonpos₀ (by norm_num)
    omega
  have hr := abs_roundHalfEven_sub_le (x / 2 ^ (e - 52))
  have hx : x = x / 2 ^ (e - 52) * 2 ^ (e - 52) := by field_simp
  have hdiff : |(roundHalfEven (x / 2 ^ (e - 52)) : α) * 2 ^ (e - 52) - x| ≤ 1 / 2 := by
    calc |(roundHalfEven (x / 2 ^ (e - 52)) : α) * 2 ^ (e - 52) - x|
        = |((roundHalfEven (x / 2 ^ (e - 52)) : α) - x / 2 ^ (e - 52)) * 2 ^ (e - 52)| := by
          congr 1
          rw [sub_mul]
          rw [← hx]
      _ = |(roundHalfEven (x / 2 ^ (e - 52)) : α) - x / 2 ^ (e - 52)| * 2 ^ (e - 52) := by
          rw [abs_mul, abs_of_pos hu]
      _ ≤ 1 / 2 * 1 := mul_le_mul hr hu1 hu.le (by norm_num)
      _ = 1 / 2 := by norm_num
  have h3 := abs_sub_abs_le_abs_sub ((roundHalfEven (x / 2 ^ (e - 52)) : α) * 2 ^ (e - 52)) x
  linarith

/-- The double returned for an exact result that is not negative satisfies `d >= 0.0`. -/
theorem Double.round_nonneg (x : α) (h : 0 ≤ x) : (Double.round x).nonneg := by
  unfold Double.round
  by_cases ho : (2 : α) ^ 1024 ≤ |binary64 x|
  · rw [if_pos ho]
    by_cases hx : 0 < x
    · rw [if_pos hx]
      trivial
    · have h0 : x = 0 := le_antisymm (not_lt.mp hx) h
      rw [h0, binary64_zero, abs_zero] at ho
      exact absurd ho (not_le.mpr (by positivity))
  · rw [if_neg ho]
    exact binary64_nonneg x h

/-- The double returned for an exact result that is not positive satisfies `d <= 0.0`. -/
theorem Double.round_nonpos (x : α) (h : x ≤ 0) : (Double.round x).nonpos := by
  unfold Double.round
  by_cases ho : (2 : α) ^ 1024 ≤ |binary64 x|
  · rw [if_pos ho, if_neg (not_lt.mpr h)]
    trivial
  · rw [if_neg ho]
    exact binary64_nonpos x h

/-- An exact result of absolute value at most 1 does not overflow. -/
theorem Double.round_of_abs_le_one (x : α) (h : |x| ≤ 1) :
    Double.round x = .fin (binary64 x) := by
  unfold Double.round
  rw [if_neg]
  rw [not_le]
  have h2 := abs_binary64_le_two x h
  have h3 : (2 : α) < 2 ^ 1024 := by norm_num
  linarith

/-- A binary64 number below `2 ^ 1024` in absolute value is returned as it is. -/
theorem Double.round_representable (m k : Int) (hm : |m| < 2 ^ 53) (hk : -1074 ≤ k)
    (hlt : |(m : α) * 2 ^ k| < 2 ^ 1024) :
    Double.round ((m : α) * 2 ^ k) = .fin ((m : α) * 2 ^ k) := by
  unfold Double.round
  rw [binary64_representable m k hm hk, if_neg (not_le.mpr hlt)]

/-- The form of `Double.round_representable` used for evaluation. -/
theorem Double.round_eq_fin (x : α) (m k : Int) (hx : x = (m : α) * 2 ^ k) (hm : |m| < 2 ^ 53)
    (hk : -1074 ≤ k) (hlt : |x| < 2 ^ 1024) : Double.round x = .fin x := by
  subst hx
  exact Double.round_representable m k hm hk hlt

/-- A positive exact result `m * 2 ^ k` of at least `2 ^ 1024` overflows to `+inf`. -/
theorem Double.round_eq_pinf (x : α) (m k : Int) (hx : x = (m : α) * 2 ^ k) (hm : |m| < 2 ^ 53)
    (hk : -1074 ≤ k) (hpos : 0 < x) (hge : 2 ^ 1024 ≤ |x|) : Double.round x = .pinf := by
  subst hx
  unfold Double.round
  rw [binary64_representable m k hm hk, if_pos hge, if_pos hpos]

/-- The product of a finite double and `+inf`. -/
theorem Double.fin_mul_pinf (x : α) : (Double.fin x).mul .pinf =
    if 0 < x then .pinf else if x < 0 then .ninf else .nan := rfl

/-- The product of a finite double and `-inf`. -/
theorem Double.fin_mul_ninf (x : α) : (Double.fin x).mul .ninf =
    if 0 < x then .ninf else if x < 0 then .pinf else .nan := rfl

/-- The product of `+inf` and a finite double. -/
theorem Double.pinf_mul_fin (y : α) : (Double.pinf).mul (.fin y) =
    if 0 < y then .pinf else if y < 0 then .ninf else .nan := rfl

/-- The product of `-inf` and a finite double. -/
theorem Double.ninf_mul_fin (y : α) : (Double.ninf).mul (.fin y) =
    if 0 < y then .ninf else if y < 0 then .pinf else .nan := rfl

/-- The product of two finite doubles. -/
theorem Double.fin_mul_fin (x y : α) : (Double.fin x).mul (.fin y) = Double.round (x * y) :=
  rfl

/-- The quotient of two finite doubles, the divisor not zero. -/
theorem Double.fin_div_fin (x y : α) (hy : y ≠ 0) :
    (Double.fin x).div (.fin y) = Double.round (x / y) := by
  show (if y = 0 then _ else Double.round (x / y)) = _
  rw [if_neg hy]

/-- A power of a finite double that is not zero, the exponent not zero. -/
theorem Double.fin_pow (x : α) (n : Int) (hn : n ≠ 0) (hx : x ≠ 0) :
    (Double.fin x).pow n = Double.round (x ^ n) := by
  show (if n = 0 then _ else (if x = 0 then _ else Double.round (x ^ n))) = _
  rw [if_neg hn, if_neg hx]

/-- The product of two doubles each of which is NaN or satisfies `d >= 0.0` is NaN or satisfies
`d >= 0.0`. -/
theorem Double.mul_nonneg_or_nan (a b : Double α) (ha : a = .nan ∨ a.nonneg)
    (hb : b = .nan ∨ b.nonneg) : a.mul b = .nan ∨ (a.mul b).nonneg := by
  rcases ha with rfl | ha
  · left
    cases b <;> rfl
  rcases hb with rfl | hb
  · left
    cases a <;> rfl
  cases a with
  | fin x =>
    cases b with
    | fin y => exact Or.inr (Double.round_nonneg _ (mul_nonneg ha hb))
    | pinf =>
      rw [Double.fin_mul_pinf]
      by_cases hx : 0 < x
      · rw [if_pos hx]
        exact Or.inr trivial
      · rw [if_neg hx, if_neg (not_lt.mpr ha)]
        exact Or.inl rfl
    | ninf => exact absurd hb id
    | nan => exact absurd hb id
  | pinf =>
    cases b with
    | fin y =>
      rw [Double.pinf_mul_fin]
      by_cases hy : 0 < y
      · rw [if_pos hy]
        exact Or.inr trivial
      · rw [if_neg hy, if_neg (not_lt.mpr hb)]
        exact Or.inl rfl
    | pinf => exact Or.inr trivial
    | ninf => exact absurd hb id
    | nan => exact absurd hb id
  | ninf => exact absurd ha id
  | nan => exact absurd ha id

/-- The product of a double that is NaN or satisfies `d <= 0.0` and one that is NaN or satisfies
`d >= 0.0` is NaN or satisfies `d <= 0.0`. -/
theorem Double.mul_nonpos_or_nan (a b : Double α) (ha : a = .nan ∨ a.nonpos)
    (hb : b = .nan ∨ b.nonneg) : a.mul b = .nan ∨ (a.mul b).nonpos := by
  rcases ha with rfl | ha
  · left
    cases b <;> rfl
  rcases hb with rfl | hb
  · left
    cases a <;> rfl
  cases a with
  | fin x =>
    cases b with
    | fin y => exact Or.inr (Double.round_nonpos _ (mul_nonpos_of_nonpos_of_nonneg ha hb))
    | pinf =>
      rw [Double.fin_mul_pinf, if_neg (not_lt.mpr ha)]
      by_cases hx : x < 0
      · rw [if_pos hx]
        exact Or.inr trivial
      · rw [if_neg hx]
        exact Or.inl rfl
    | ninf => exact absurd hb id
    | nan => exact absurd hb id
  | ninf =>
    cases b with
    | fin y =>
      rw [Double.ninf_mul_fin]
      by_cases hy : 0 < y
      · rw [if_pos hy]
        exact Or.inr trivial
      · rw [if_neg hy, if_neg (not_lt.mpr hb)]
        exact Or.inl rfl
    | pinf => exact Or.inr trivial
    | ninf => exact absurd hb id
    | nan => exact absurd hb id
  | pinf => exact absurd ha id
  | nan => exact absurd ha id

/-- A power of a double that satisfies `d >= 0.0` satisfies it too. -/
theorem Double.pow_nonneg (d : Double α) (n : Int) (hd : d.nonneg) : (d.pow n).nonneg := by
  unfold Double.pow
  by_cases hn : n = 0
  · rw [if_pos hn]
    show (0 : α) ≤ 1
    norm_num
  rw [if_neg hn]
  cases d with
  | fin x =>
    show Double.nonneg (if x = 0 then (if n < 0 then Double.pinf else Double.fin 0)
      else Double.round (x ^ n))
    by_cases hx : x = 0
    · rw [if_pos hx]
      by_cases hneg : n < 0
      · rw [if_pos hneg]
        trivial
      · rw [if_neg hneg]
        exact le_refl (0 : α)
    · rw [if_neg hx]
      exact Double.round_nonneg _ (zpow_nonneg hd n)
  | pinf =>
    show Double.nonneg (if 0 < n then Double.pinf else Double.fin (0 : α))
    by_cases hpos : 0 < n
    · rw [if_pos hpos]
      trivial
    · rw [if_neg hpos]
      exact le_refl (0 : α)
  | ninf => exact absurd hd id
  | nan => exact absurd hd id

/-- The double `1 / Tp` satisfies `d >= 0.0` for `Tp > 0`. -/
theorem Double.one_div_nonneg (Tp : α) (hTp : 0 < Tp) :
    ((Double.fin (1 : α)).div (.fin Tp)).nonneg := by
  show Double.nonneg (if Tp = 0 then _ else Double.round (1 / Tp))
  rw [if_neg (ne_of_gt hTp)]
  exact Double.round_nonneg _ (by positivity)

/-- The double `std::pow(Hs / 2, 2)` is NaN or satisfies `d >= 0.0`. -/
theorem Double.sq_half_nonneg_or_nan (Hs : α) :
    (((Double.fin Hs).div (.fin 2)).pow 2) = .nan ∨
      (((Double.fin Hs).div (.fin 2)).pow 2).nonneg := by
  have hdiv : (Double.fin Hs).div (.fin (2 : α)) = Double.round (Hs / 2) := by
    show (if (2 : α) = 0 then _ else Double.round (Hs / 2)) = _
    rw [if_neg (by norm_num)]
  rw [hdiv]
  right
  unfold Double.round
  by_cases ho : (2 : α) ^ 1024 ≤ |binary64 (Hs / 2)|
  · rw [if_pos ho]
    by_cases hx : 0 < Hs / 2
    · rw [if_pos hx]
      exact Double.pow_nonneg _ _ trivial
    · rw [if_neg hx]
      show Double.nonneg (if (2 : Int) = 0 then _ else
        (if (0 : Int) < 2 then (if (2 : Int) % 2 = 0 then Double.pinf else Double.ninf)
          else Double.fin (0 : α)))
      rw [if_neg (by norm_num), if_pos (by norm_num), if_pos (by norm_num)]
      trivial
  · rw [if_neg ho]
    show Double.nonneg (if (2 : Int) = 0 then _ else
      (if binary64 (Hs / 2) = 0 then (if (2 : Int) < 0 then Double.pinf else Double.fin 0)
        else Double.round (binary64 (Hs / 2) ^ (2 : Int))))
    rw [if_neg (by norm_num)]
    by_cases hz : binary64 (Hs / 2) = 0
    · rw [if_pos hz, if_neg (by norm_num)]
      exact le_refl (0 : α)
    · rw [if_neg hz]
      apply Double.round_nonneg
      have : binary64 (Hs / 2) ^ (2 : Int) = binary64 (Hs / 2) ^ 2 := by norm_cast
      rw [this]
      positivity

/-! ## `NoWave::GetForceAtTime` -/

/-- C9 (counterexample): for `num_bodies = 715827883` the product `num_bodies * 6` does not
fit the `unsigned int` it is stored in, and the vector returned has 2 entries, not
`6 * num_bodies`. -/
theorem NoWave_GetForceAtTime_length_wraps :
    ∃ f, NoWave.GetForceAtTime (fun _ => (1 : ℚ)) 715827883 0 = some f ∧
      f.length = 2 ∧ f.length ≠ 6 * 715827883 := by
  refine ⟨[0, 0], ?_, rfl, by decide⟩
  simp [NoWave.GetForceAtTime, loop, uninitVec, writeAt, List.range_succ]

/-- C9 (amended): whenever the `unsigned int` value `(num_bodies * 6) mod 2 ^ 32` is below
`2 ^ 31`, `NoWave::GetForceAtTime` returns a vector of that length in which every entry is
0, whatever the vector held before; the length is `6 * num_bodies` itself when
`6 * num_bodies < 2 ^ 31`. -/
theorem NoWave_GetForceAtTime_zero (junk : Nat → α) (num_bodies : Nat) (t : α)
    (h : (num_bodies * 6) % 2 ^ 32 < 2 ^ 31) :
    ∃ f, NoWave.GetForceAtTime junk num_bodies t = some f ∧
      f.length = (num_bodies * 6) % 2 ^ 32 ∧ (∀ x ∈ f, x = 0) ∧
      (6 * num_bodies < 2 ^ 31 → f.length = 6 * num_bodies) := by
  obtain ⟨f, hf, hlen, hz⟩ := loop_inv
    (fun i (f : List α) => f.length = (num_bodies * 6) % 2 ^ 32 ∧ ∀ k, k < i → f[k]? = some 0)
    ((num_bodies * 6) % 2 ^ 32) (fun i f => writeAt f i 0)
    (uninitVec junk ((num_bodies * 6) % 2 ^ 32))
    ⟨by simp [uninitVec], fun k hk => absurd hk (Nat.not_lt_zero k)⟩
    (by
      intro i f hi ⟨hlen, hz⟩
      refine ⟨f.set i 0, writeAt_of_lt f i 0 (by omega), by simpa using hlen, ?_⟩
      intro k hk
      by_cases hki : k = i
      · subst hki
        exact List.getElem?_set_self (by omega)
      · rw [List.getElem?_set_ne (Ne.symm hki)]
        exact hz k (by omega))
  refine ⟨f, ?_, hlen, ?_, ?_⟩
  · simp only [NoWave.GetForceAtTime]
    rw [if_pos h]
    exact hf
  · intro x hx
    obtain ⟨k, hk⟩ := List.mem_iff_getElem?.mp hx
    have hkl : k < f.length := by
      by_contra hc
      rw [List.getElem?_eq_none (by omega)] at hk
      exact Option.noConfusion hk
    have := hz k (by omega)
    rw [hk] at this
    exact Option.some.inj this
  · intro h6
    rw [hlen]
    omega

/-- C9 (witness): one body, indeterminate initial contents 7. -/
theorem NoWave_GetForceAtTime_zero_witness :
    ∃ f, NoWave.GetForceAtTime (fun _ => (7 : ℚ)) 1 0 = some f ∧
      f.length = (1 * 6) % 2 ^ 32 ∧ (∀ x ∈ f, x = 0) ∧
      (6 * 1 < 2 ^ 31 → f.length = 6 * 1) :=
  NoWave_GetForceAtTime_zero (fun _ => (7 : ℚ)) 1 0 (by decide)

/-! ## `PiersonMoskowitzSpectrumHz` -/

/-- C3: for `Hs > 0`, `Tp > 0` and an ascending grid `f` of positive frequencies,
`PiersonMoskowitzSpectrumHz` returns (leaving the grid as it was) a series of the length
of `f` whose `i`-th entry is
`1.25 * Tp^-4 * (Hs/2)^2 * f_i^-5 * exp(-1.25 * Tp^-4 * f_i^-4)`. -/
theorem PiersonMoskowitzSpectrumHz_formula (exp : α → α) (f : List α) (Hs Tp : α)
    (_hHs : 0 < Hs) (hTp : 0 < Tp) (hsorted : f.Sorted (fun a b => a ≤ b))
    (hpos : ∀ x ∈ f, 0 < x) :
    ∃ S : List α, PiersonMoskowitzSpectrumHz exp f Hs Tp = some (f, S) ∧ S.length = f.length ∧
      ∀ (i : Nat) (fi : α), f[i]? = some fi →
        S[i]? = some (1.25 * Tp ^ (-4 : ℤ) * (Hs / 2) ^ 2 * fi ^ (-5 : ℤ) *
          exp (-1.25 * Tp ^ (-4 : ℤ) * fi ^ (-4 : ℤ))) := by
  have hs : f.insertionSort (fun a b => a ≤ b) = f := List.Sorted.insertionSort_eq hsorted
  have h0 : ¬ (Tp = 0 ∨ (0 : α) ∈ f) := by
    rintro (h | h)
    · exact (ne_of_gt hTp) h
    · exact lt_irrefl _ (hpos 0 h)
  have hT : (1 / Tp) ^ 4 = Tp ^ (-4 : ℤ) := by
    rw [one_div, inv_pow, zpow_neg]
    norm_cast
  refine ⟨f.map (fun fi => 1.25 * (1 / Tp) ^ 4 * (Hs / 2) ^ 2 * fi ^ (-5 : ℤ) *
      exp (-1.25 * (1 / Tp) ^ 4 * fi ^ (-4 : ℤ))), ?_, ?_, ?_⟩
  · simp only [PiersonMoskowitzSpectrumHz, hs]
    rw [if_neg h0]
  · simp
  · intro i fi hfi
    simp only [List.getElem?_map, hfi, Option.map_some', hT]

/-- C3 (witness): the grid `[1, 2]` with `Hs = 2`, `Tp = 1` over the reals. -/
theorem PiersonMoskowitzSpectrumHz_formula_witness :
    ∃ S : List ℝ, PiersonMoskowitzSpectrumHz Real.exp [(1 : ℝ), 2] 2 1 = some ([1, 2], S) ∧
      S.length = [(1 : ℝ), 2].length ∧
      ∀ (i : Nat) (fi : ℝ), [(1 : ℝ), 2][i]? = some fi →
        S[i]? = some (1.25 * (1 : ℝ) ^ (-4 : ℤ) * ((2 : ℝ) / 2) ^ 2 * fi ^ (-5 : ℤ) *
          Real.exp (-1.25 * (1 : ℝ) ^ (-4 : ℤ) * fi ^ (-4 : ℤ))) :=
  PiersonMoskowitzSpectrumHz_formula Real.exp [(1 : ℝ), 2] 2 1 (by norm_num) (by norm_num)
    (by simp) (by simp)

/-! ## `IrregularWave::ResampleTime` -/

/-- C5 (the code at the failing input): resampling the axis `[0, 1, 2]` (step 1) to
`simulation_dt = 1/2` returns six samples spaced `2/5` apart, not `1/2`. -/
theorem ResampleTime_step_differs :
    IrregularWave.ResampleTime [(0 : ℚ), 1, 2] (1 / 2) = some [0, 2 / 5, 4 / 5, 6 / 5, 8 / 5, 2] ∧
      ([0, 2 / 5, 4 / 5, 6 / 5, 8 / 5, 2] : List ℚ)[1]? ≠ some (1 * (1 / 2)) := by
  have hc : ⌈(3 : ℚ) * 2⌉ = 6 := by
    rw [Int.ceil_eq_iff]
    norm_num
  constructor
  · simp [IrregularWave.ResampleTime, LinSpaced, hc, List.range_succ, readAt]
    norm_num
  · norm_num

/-- C6 (the code at the failing input): for the axis `[0, 1, 2, 3]` (step 1) and
`simulation_dt = 1/2` the original duration is 3 and `ceil(3 / (1/2)) = 6`, while the axis
returned has `ceil(4 * 1 / (1/2)) = 8` samples: the count is taken from `n * dt_old`, one
original step more than the duration `(n - 1) * dt_old` that the end point is taken from. -/
theorem ResampleTime_length_not_ceil_duration :
    ∃ t_new, IrregularWave.ResampleTime [(0 : ℚ), 1, 2, 3] (1 / 2) = some t_new ∧
      t_new.length = 8 ∧ t_new[7]? = some 3 ∧ ⌈((3 : ℚ) - 0) / (1 / 2)⌉ = 6 := by
  have hc : ⌈(4 : ℚ) * 2⌉ = 8 := by
    rw [Int.ceil_eq_iff]
    norm_num
  have hc6 : ⌈((3 : ℚ) - 0) / (1 / 2)⌉ = 6 := by
    rw [Int.ceil_eq_iff]
    norm_num
  refine ⟨LinSpaced 8 0 3, ?_, by simp [LinSpaced], by simp [LinSpaced, List.range_succ], hc6⟩
  simp [IrregularWave.ResampleTime, hc, readAt, LinSpaced, List.range_succ]
  norm_num

/-- An axis that `ResampleTime` returns for a target step `dt_new > 0` starts at 0 and has a second
sample, which is at most `dt_new`: the function reads `t_new[t_old.size() - 1]` before it
returns, so the new axis has at least as many samples as the old one. -/
theorem ResampleTime_first_lags (t_old : List α) (dt_new : α) (t_new : List α)
    (hdt : 0 < dt_new) (h : IrregularWave.ResampleTime t_old dt_new = some t_new) :
    t_new[0]? = some 0 ∧ ∃ tau1, t_new[1]? = some tau1 ∧ tau1 ≤ dt_new := by
  unfold IrregularWave.ResampleTime at h
  cases h1 : t_old[1]? with
  | none => simp [h1] at h
  | some t1 =>
    cases h0 : t_old[0]? with
    | none => simp [h1, h0] at h
    | some t0 =>
      simp only [h1, h0, Option.bind_eq_bind, Option.some_bind, Option.pure_def] at h
      split_ifs at h with hz hs
      simp only [Option.bind_eq_some] at h
      obtain ⟨_, _, _, _, _, _, u, hu, hr⟩ := h
      have hr2 := (Option.some.inj hr).symm
      subst hr2
      have hn : 2 ≤ t_old.length := by
        obtain ⟨hlt, _⟩ := List.getElem?_eq_some.mp h1
        omega
      generalize hS : ⌈(t_old.length : α) * (t1 - t0) / dt_new⌉ = size at hs hu ⊢
      have hSn : t_old.length ≤ size.toNat := by
        have hsome : (readAt (LinSpaced size.toNat 0 (((t_old.length : α) - 1) * (t1 - t0)))
            ((t_old.length : Int) - 1)).isSome := by
          rw [hu]
          rfl
        unfold readAt at hsome
        rw [if_pos (by omega)] at hsome
        obtain ⟨x, hx⟩ := Option.isSome_iff_exists.mp hsome
        obtain ⟨hlt, _⟩ := List.getElem?_eq_some.mp hx
        simp only [LinSpaced, List.length_map, List.length_range] at hlt
        omega
      have hcast : ((size.toNat : Nat) : α) = ((size : Int) : α) := by
        have : ((size.toNat : Nat) : Int) = size := Int.toNat_of_nonneg hs.1
        exact_mod_cast this
      have hceil : (t_old.length : α) * (t1 - t0) / dt_new ≤ ((size.toNat : Nat) : α) := by
        rw [hcast, ← hS]
        exact Int.le_ceil _
      have hSge : (t_old.length : α) ≤ ((size.toNat : Nat) : α) := by exact_mod_cast hSn
      have hn2 : (2 : α) ≤ (t_old.length : α) := by exact_mod_cast hn
      have hpos : (0 : α) < ((size.toNat : Nat) : α) - 1 := by linarith
      have hbound : ((t_old.length : α) - 1) * (t1 - t0) / (((size.toNat : Nat) : α) - 1) ≤
          dt_new := by
        rw [div_le_iff₀ hpos]
        rw [div_le_iff₀ hdt] at hceil
        by_cases hd : t1 - t0 ≤ dt_new
        · calc ((t_old.length : α) - 1) * (t1 - t0)
              ≤ ((t_old.length : α) - 1) * dt_new :=
                mul_le_mul_of_nonneg_left hd (by linarith)
            _ ≤ dt_new * (((size.toNat : Nat) : α) - 1) := by
                rw [mul_comm]
                exact mul_le_mul_of_nonneg_left (by linarith) hdt.le
        · have hd2 : dt_new < t1 - t0 := not_le.mp hd
          nlinarith
      refine ⟨?_, ?_⟩
      · unfold LinSpaced
        rw [List.getElem?_map, List.getElem?_range (by omega), Option.map_some']
        rw [if_neg (by omega)]
        simp
      · refine ⟨_, ?_, hbound⟩
        unfold LinSpaced
        rw [List.getElem?_map, List.getElem?_range (by omega), Option.map_some']
        by_cases hlast : 1 + 1 = size.toNat
        · rw [if_pos hlast, ← hlast]
          congr 1
          norm_num
        · rw [if_neg hlast]
          congr 1
          simp

/-! ## `IrregularWave::ExcitationConvolution` -/

/-- Inside the window `0 < x < n * dt` the step `dt` is positive. -/
theorem window_dt_pos (n : Nat) (dt x : α) (h0 : 0 < x) (h1 : x < (n : α) * dt) : 0 < dt := by
  by_contra hc
  have h2 : (n : α) * dt ≤ 0 :=
    mul_nonpos_of_nonneg_of_nonpos (Nat.cast_nonneg n) (not_lt.mp hc)
  linarith

/-- Inside the window `0 < x < n * dt` the index `floor(x / dt)` lies in `[0, n)`. -/
theorem window_floor_bounds (n : Nat) (dt x : α) (h0 : 0 < x) (h1 : x < (n : α) * dt) :
    0 ≤ ⌊x / dt⌋ ∧ ⌊x / dt⌋ < (n : Int) := by
  have hdt := window_dt_pos n dt x h0 h1
  constructor
  · exact Int.floor_nonneg.mpr (div_nonneg h0.le hdt.le)
  · rw [Int.floor_lt]
    rw [div_lt_iff₀ hdt]
    exact_mod_cast h1

/-- The loop body of `ExcitationConvolution` for a lag index whose reads are in bounds. -/
theorem convolution_step (taus row eta : List α) (m : List (List α))
    (irf : List (List (List α))) (body dof : Nat) (dt time : α)
    (hm : irf[body]? = some m) (hrow : m[dof]? = some row) (hcols : taus.length ≤ row.length)
    (hidx : ∀ tau ∈ taus, 0 < time - tau → time - tau < (eta.length : α) * dt →
      1 ≤ ⌊(time - tau) / dt⌋)
    (j : Nat) (acc : α) (hj : j < taus.length) :
    ((taus[j]?).bind fun tau =>
      ((irf[body]?).bind fun m => matAt m dof j).bind fun ex_irf_val =>
        if 0 < time - tau ∧ time - tau < (eta.length : α) * dt then
          (readAt eta ((⌊(time - tau) / dt⌋.toNat : Int) - 1)).bind fun eta_val =>
            some (acc + ex_irf_val * eta_val * dt)
        else some acc) =
    some (acc + (if 0 < time - taus.getD j 0 ∧ time - taus.getD j 0 < (eta.length : α) * dt
      then row.getD j 0 * eta.getD (⌊(time - taus.getD j 0) / dt⌋ - 1).toNat 0 * dt
      else 0)) := by
  have hjr : j < row.length := lt_of_lt_of_le hj hcols
  have htau : taus[j]? = some taus[j] := List.getElem?_eq_getElem hj
  have hr : row[j]? = some row[j] := List.getElem?_eq_getElem hjr
  have hmem : taus[j] ∈ taus := List.getElem_mem hj
  simp only [htau, hm, hrow, hr, matAt, Option.some_bind, List.getD_eq_getElem?_getD,
    Option.getD_some]
  by_cases hw : 0 < time - taus[j] ∧ time - taus[j] < (eta.length : α) * dt
  · rw [if_pos hw, if_pos hw]
    obtain ⟨hnn, hlt⟩ := window_floor_bounds eta.length dt _ hw.1 hw.2
    have h1 := hidx _ hmem hw.1 hw.2
    have hcast : ((⌊(time - taus[j]) / dt⌋.toNat : Int) - 1) =
        (((⌊(time - taus[j]) / dt⌋ - 1).toNat : Nat) : Int) := by
      rw [Int.toNat_of_nonneg hnn, Int.toNat_of_nonneg (by omega)]
    have hin : (⌊(time - taus[j]) / dt⌋ - 1).toNat < eta.length := by omega
    rw [hcast, readAt_natCast, List.getElem?_eq_getElem hin]
    simp
  · rw [if_neg hw, if_neg hw]
    simp

/-- The value of `ExcitationConvolution` when all its reads are in bounds: the sum of the
in-window terms. -/
theorem convolution_sum (s : IrregularWave α) (body dof : Nat) (time : α)
    (taus row : List α) (m : List (List α))
    (htaus : s.ex_irf_time_resampled[0]? = some taus)
    (hm : s.ex_irf_resampled[body]? = some m) (hrow : m[dof]? = some row)
    (hcols : taus.length ≤ row.length)
    (hidx : ∀ tau ∈ taus, 0 < time - tau →
      time - tau < (s.eta.length : α) * s.simulation_dt →
      1 ≤ ⌊(time - tau) / s.simulation_dt⌋) :
    s.ExcitationConvolution body dof time = some (∑ j ∈ Finset.range taus.length,
      if 0 < time - taus.getD j 0 ∧
          time - taus.getD j 0 < (s.eta.length : α) * s.simulation_dt
      then row.getD j 0 *
        s.eta.getD (⌊(time - taus.getD j 0) / s.simulation_dt⌋ - 1).toNat 0 * s.simulation_dt
      else 0) := by
  unfold IrregularWave.ExcitationConvolution
  simp only [htaus, Option.bind_eq_bind, Option.some_bind, Option.pure_def]
  refine (loop_sum taus.length _ _ 0 ?_).trans (by rw [zero_add])
  intro j acc hj
  exact convolution_step taus row s.eta m s.ex_irf_resampled body dof s.simulation_dt time
    hm hrow hcols hidx j acc hj

/-- C1: when the impulse-response row of body `b` and degree of freedom `d` has a column for
every lag sample and every elevation read is in bounds, `ExcitationConvolution(b, d, t)`
returns the sum over all lag samples `j` of
`IRF_b[d, j] * eta[floor((t - tau_j)/dt) - 1] * dt` over the `j` with
`0 < t - tau_j < len(eta) * dt`, the other `j` contributing zero; `tau` is the lag axis of
body 0, and every elevation index the sum reads is below `len(eta)`. -/
theorem ExcitationConvolution_eq_sum (s : IrregularWave α) (body dof : Nat) (time : α)
    (taus row : List α) (m : List (List α))
    (htaus : s.ex_irf_time_resampled[0]? = some taus)
    (hm : s.ex_irf_resampled[body]? = some m) (hrow : m[dof]? = some row)
    (hcols : taus.length ≤ row.length)
    (hidx : ∀ tau ∈ taus, 0 < time - tau →
      time - tau < (s.eta.length : α) * s.simulation_dt →
      1 ≤ ⌊(time - tau) / s.simulation_dt⌋) :
    s.ExcitationConvolution body dof time = some (∑ j ∈ Finset.range taus.length,
      if 0 < time - taus.getD j 0 ∧
          time - taus.getD j 0 < (s.eta.length : α) * s.simulation_dt
      then row.getD j 0 *
        s.eta.getD (⌊(time - taus.getD j 0) / s.simulation_dt⌋ - 1).toNat 0 * s.simulation_dt
      else 0) ∧
    ∀ tau ∈ taus, 0 < time - tau → time - tau < (s.eta.length : α) * s.simulation_dt →
      (⌊(time - tau) / s.simulation_dt⌋ - 1).toNat < s.eta.length := by
  refine ⟨convolution_sum s body dof time taus row m htaus hm hrow hcols hidx, ?_⟩
  intro tau htau h0 h1
  have hb := window_floor_bounds s.eta.length s.simulation_dt _ h0 h1
  have h2 := hidx tau htau h0 h1
  omega

/-- C1 (witness): lag axis `[0, 1]`, step 1, elevation `[1, 2, 3]`, unit impulse response,
query time `5/2`: the two terms read `eta[1]` and `eta[0]`. -/
theorem ExcitationConvolution_eq_sum_witness :
    unitLagState.ExcitationConvolution 0 0 (5 / 2) = some 3 :=
  (ExcitationConvolution_eq_sum unitLagState 0 0 (5 / 2) [0, 1] [1, 1] (List.replicate 6 [1, 1])
    rfl rfl rfl (by simp)
    (by
      intro tau htau _ _
      simp only [unitLagState, div_one]
      rw [Int.le_floor]
      simp only [List.mem_cons, List.mem_singleton, List.not_mem_nil, or_false] at htau
      rcases htau with rfl | rfl <;> norm_num)).1.trans
    (by
      have h2 : ⌊(5 / 2 : ℚ)⌋ = 2 := by
        rw [Int.floor_eq_iff]
        norm_num
      have h1 : ⌊(3 / 2 : ℚ)⌋ = 1 := by
        rw [Int.floor_eq_iff]
        norm_num
      simp [unitLagState, Finset.sum_range_succ, h2, h1]
      norm_num [h1])

/-- C7 (the code at the failing input): lag axis `[0, 1, 2, 3]` (what `ResampleTime` returns
for the axis `[0, 1, 2, 3]` at `simulation_dt = 1`), five elevation samples, query time `1/2`,
which is smaller than the first positive lag offset 1.  The lag 0 is inside the window
(`0 < 1/2 < 5`), its `eta_index` is 0 and the read is `eta[-1]`: the call has no defined
value, where the claim gives 0.  At the query time 0 the call returns 0. -/
theorem ExcitationConvolution_undefined_before_first_positive_lag :
    IrregularWave.ResampleTime [(0 : ℚ), 1, 2, 3] 1 = some [0, 1, 2, 3] ∧
      fourLagState.ex_irf_time_resampled = [[0, 1, 2, 3]] ∧
      ((0 : ℚ) < 1 / 2 ∧ (1 / 2 : ℚ) < 1) ∧
      ((⌊((1 / 2 : ℚ) - 0) / fourLagState.simulation_dt⌋.toNat : Int) - 1 = -1) ∧
      fourLagState.ExcitationConvolution 0 0 (1 / 2) = none ∧
      fourLagState.ExcitationConvolution 0 0 0 = some 0 := by
  have hf : ⌊(1 / 2 : ℚ)⌋ = 0 := by
    rw [Int.floor_eq_iff]
    norm_num
  have hc : ⌈(4 : ℚ)⌉ = 4 := by
    rw [Int.ceil_eq_iff]
    norm_num
  refine ⟨?_, rfl, by norm_num, ?_, ?_, ?_⟩
  · simp [IrregularWave.ResampleTime, LinSpaced, hc, List.range_succ, readAt]
    norm_num
  · norm_num [fourLagState, hf]
  · simp [IrregularWave.ExcitationConvolution, fourLagState, loop, List.range_succ, matAt,
      readAt]
    norm_num [hf]
    intro a ha
    exact absurd ha (by simp)
  · simp [IrregularWave.ExcitationConvolution, fourLagState, loop, List.range_succ, matAt,
      readAt]
    norm_num

/-- With a lag axis that starts at 0 and at least one elevation sample, a query time in
`(0, simulation_dt)` puts the lag 0 inside the window with `eta_index = 0`: the read is
`eta[-1]` and the call has no defined value. -/
theorem ExcitationConvolution_none_of_small_time (s : IrregularWave α) (body dof : Nat)
    (time : α) (taus : List α) (v : α)
    (htaus : s.ex_irf_time_resampled[0]? = some taus) (h0 : taus[0]? = some 0)
    (hv : (s.ex_irf_resampled[body]?).bind (fun m => matAt m dof 0) = some v)
    (heta : 1 ≤ s.eta.length) (ht0 : 0 < time) (ht1 : time < s.simulation_dt) :
    s.ExcitationConvolution body dof time = none := by
  have hdt : 0 < s.simulation_dt := lt_trans ht0 ht1
  have hlen : 1 ≤ taus.length := by
    obtain ⟨h, _⟩ := List.getElem?_eq_some.mp h0
    omega
  have hw : 0 < time - 0 ∧ time - 0 < (s.eta.length : α) * s.simulation_dt := by
    rw [sub_zero]
    refine ⟨ht0, lt_of_lt_of_le ht1 ?_⟩
    have h1 : (1 : α) ≤ (s.eta.length : α) := by exact_mod_cast heta
    calc s.simulation_dt = 1 * s.simulation_dt := (one_mul _).symm
      _ ≤ (s.eta.length : α) * s.simulation_dt := mul_le_mul_of_nonneg_right h1 hdt.le
  have hfl : ⌊(time - 0) / s.simulation_dt⌋ = 0 := by
    rw [sub_zero, Int.floor_eq_iff]
    constructor
    · simp only [Int.cast_zero]
      exact div_nonneg ht0.le hdt.le
    · simp only [Int.cast_zero, zero_add]
      rw [div_lt_one hdt]
      exact ht1
  unfold IrregularWave.ExcitationConvolution
  simp only [htaus, Option.bind_eq_bind, Option.some_bind, Option.pure_def]
  apply loop_none_of_first _ _ _ hlen
  simp only [h0, Option.some_bind, hv]
  rw [if_pos hw, hfl]
  simp [readAt]

/-- On a provider whose lag axis is the one `ResampleTime` returns for `simulation_dt > 0`, with at
least one elevation sample, every query time `t > 0` that is smaller than the first positive
lag offset meets the read `eta[-1]`: the call has no defined value. -/
theorem ExcitationConvolution_none_before_first_positive_lag (s : IrregularWave α)
    (body dof : Nat) (time : α) (t_old t_new : List α) (v : α)
    (hdt : 0 < s.simulation_dt)
    (hres : IrregularWave.ResampleTime t_old s.simulation_dt = some t_new)
    (htaus : s.ex_irf_time_resampled[0]? = some t_new)
    (hv : (s.ex_irf_resampled[body]?).bind (fun m => matAt m dof 0) = some v)
    (heta : 1 ≤ s.eta.length) (ht0 : 0 < time)
    (ht1 : ∀ tau1, t_new[1]? = some tau1 → time < tau1) :
    s.ExcitationConvolution body dof time = none := by
  obtain ⟨h0, tau1, h1, hle⟩ := ResampleTime_first_lags t_old s.simulation_dt t_new hdt hres
  exact ExcitationConvolution_none_of_small_time s body dof time t_new v htaus h0 hv heta ht0
    (lt_of_lt_of_le (ht1 tau1 h1) hle)

/-- For every query time `t` that no lag offset of the lag axis lies below (`t <= tau_j` for
every `j`; with an axis that starts at 0 this is `t <= 0`), and every body and degree of
freedom whose impulse-response row has a column for every lag sample,
`ExcitationConvolution` returns exactly 0, whatever the elevation history and
impulse-response values are. -/
theorem ExcitationConvolution_zero_before_lags (s : IrregularWave α) (body dof : Nat)
    (time : α) (taus row : List α) (m : List (List α))
    (htaus : s.ex_irf_time_resampled[0]? = some taus)
    (hm : s.ex_irf_resampled[body]? = some m) (hrow : m[dof]? = some row)
    (hcols : taus.length ≤ row.length) (hbefore : ∀ tau ∈ taus, time ≤ tau) :
    s.ExcitationConvolution body dof time = some 0 := by
  have hidx : ∀ tau ∈ taus, 0 < time - tau →
      time - tau < (s.eta.length : α) * s.simulation_dt →
      1 ≤ ⌊(time - tau) / s.simulation_dt⌋ := by
    intro tau htau hpos _
    have := hbefore tau htau
    linarith
  rw [convolution_sum s body dof time taus row m htaus hm hrow hcols hidx]
  congr 1
  apply Finset.sum_eq_zero
  intro j hj
  have hjl : j < taus.length := Finset.mem_range.mp hj
  have hle := hbefore taus[j] (List.getElem_mem hjl)
  rw [if_neg]
  simp only [List.getD_eq_getElem?_getD, List.getElem?_eq_getElem hjl, Option.getD_some]
  intro hw
  linarith [hw.1]

/-- Inside the window, two elevation histories that agree below `floor(t / dt)` give the
same read `eta[eta_index - 1]` for a lag offset that is not negative. -/
theorem causal_read (eta1 eta2 : List α) (dt time tau : α) (htau : 0 ≤ tau)
    (hw0 : 0 < time - tau) (hw1 : time - tau < (eta1.length : α) * dt)
    (hagree : ∀ i : Nat, (i : Int) < ⌊time / dt⌋ → eta1[i]? = eta2[i]?) :
    readAt eta1 ((⌊(time - tau) / dt⌋.toNat : Int) - 1) =
      readAt eta2 ((⌊(time - tau) / dt⌋.toNat : Int) - 1) := by
  have hdt := window_dt_pos eta1.length dt _ hw0 hw1
  obtain ⟨hnn, _⟩ := window_floor_bounds eta1.length dt _ hw0 hw1
  have hmono : ⌊(time - tau) / dt⌋ ≤ ⌊time / dt⌋ :=
    Int.floor_mono ((div_le_div_iff_of_pos_right hdt).mpr (by linarith))
  by_cases hk : 1 ≤ ⌊(time - tau) / dt⌋
  · have hcast : ((⌊(time - tau) / dt⌋.toNat : Int) - 1) =
        (((⌊(time - tau) / dt⌋ - 1).toNat : Nat) : Int) := by
      rw [Int.toNat_of_nonneg hnn, Int.toNat_of_nonneg (by omega)]
    rw [hcast, readAt_natCast, readAt_natCast]
    apply hagree
    rw [Int.toNat_of_nonneg (by omega)]
    omega
  · have hneg : ¬ (0 : Int) ≤ (⌊(time - tau) / dt⌋.toNat : Int) - 1 := by
      rw [Int.toNat_of_nonneg hnn]
      omega
    simp only [readAt, if_neg hneg]

/-- C8: causality as a two-run statement.  With all lag offsets of the lag axis at least 0,
if a second elevation history has the length of the first and agrees with it at every
index below `floor(t / simulation_dt)`, then `ExcitationConvolution(b, d, t)` gives the same
result (the same value, or the same failure) with either history. -/
theorem ExcitationConvolution_causal (s : IrregularWave α) (eta2 : List α) (body dof : Nat)
    (time : α) (hlen : eta2.length = s.eta.length)
    (hlag : ∀ taus, s.ex_irf_time_resampled[0]? = some taus → ∀ tau ∈ taus, 0 ≤ tau)
    (hagree : ∀ i : Nat, (i : Int) < ⌊time / s.simulation_dt⌋ → s.eta[i]? = eta2[i]?) :
    s.ExcitationConvolution body dof time =
      ({ s with eta := eta2 } : IrregularWave α).ExcitationConvolution body dof time := by
  unfold IrregularWave.ExcitationConvolution
  cases htaus : s.ex_irf_time_resampled[0]? with
  | none => simp [htaus]
  | some taus =>
    simp only [htaus, Option.bind_eq_bind, Option.some_bind, Option.pure_def, hlen]
    apply loop_congr
    intro j acc hj
    have hmem : taus[j] ∈ taus := List.getElem_mem hj
    have h0 : 0 ≤ taus[j] := hlag taus htaus _ hmem
    simp only [List.getElem?_eq_getElem hj, Option.some_bind]
    cases (s.ex_irf_resampled[body]?).bind (fun m => matAt m dof j) with
    | none => rfl
    | some v =>
      simp only [Option.some_bind]
      by_cases hw : 0 < time - taus[j] ∧ time - taus[j] < (s.eta.length : α) * s.simulation_dt
      · rw [if_pos hw, if_pos hw, causal_read s.eta eta2 s.simulation_dt time taus[j] h0
          hw.1 hw.2 hagree]
      · rw [if_neg hw, if_neg hw]

/-- C8 (witness): the histories `[1, 2, 3]` and `[1, 2, 7]` agree below index
`floor((5/2) / 1) = 2`. -/
theorem ExcitationConvolution_causal_witness :
    unitLagState.ExcitationConvolution 0 0 (5 / 2) =
      ({ unitLagState with eta := [1, 2, 7] } : IrregularWave ℚ).ExcitationConvolution 0 0
        (5 / 2) :=
  ExcitationConvolution_causal unitLagState [1, 2, 7] 0 0 (5 / 2) rfl
    (by
      intro taus htaus tau htau
      have ht : taus = [0, 1] := by
        have h : some taus = some [(0 : ℚ), 1] := htaus.symm.trans rfl
        exact Option.some.inj h
      subst ht
      simp only [List.mem_cons, List.mem_singleton, List.not_mem_nil, or_false] at htau
      rcases htau with rfl | rfl <;> norm_num)
    (by
      have h2 : ⌊(5 / 2 : ℚ) / unitLagState.simulation_dt⌋ = 2 := by
        rw [Int.floor_eq_iff]
        norm_num [unitLagState]
      intro i hi
      rw [h2] at hi
      have hi2 : i < 2 := by omega
      interval_cases i <;> rfl)

/-! ## `RegularWave::GetForceAtTime` -/

/-- A write at another index keeps what a read returned. -/
theorem getElem?_set_of_ne {β : Type} (f : List β) (i k : Nat) (x : β) (o : Option β)
    (hki : k ≠ i) (h : f[k]? = o) : (f.set i x)[k]? = o := by
  rw [List.getElem?_set_ne (Ne.symm hki)]
  exact h

/-- What `RegularWave::GetForceAtTime` computes: with the magnitudes and the first six phases
in place, entry `6b + d` of the vector returned is
`mag[6b + d] * amplitude * cos(omega * t + phase[d])`, the phase being read at `d`. -/
theorem RegularWave_GetForceAtTime_entries (cos : α → α) (junk : Nat → α) (s : RegularWave α)
    (t : α) (hn : 6 * s.num_bodies < 2 ^ 31)
    (hmag : 6 * s.num_bodies ≤ s.excitation_force_mag.length)
    (hph : 6 ≤ s.excitation_force_phase.length) :
    ∃ f : List α, RegularWave.GetForceAtTime cos junk s t = some f ∧
      f.length = 6 * s.num_bodies ∧
      ∀ b d, b < s.num_bodies → d < 6 →
        f[6 * b + d]? = some (s.excitation_force_mag.getD (6 * b + d) 0 *
          s.regular_wave_amplitude *
          cos (s.regular_wave_omega * t + s.excitation_force_phase.getD d 0)) := by
  have hdof : (s.num_bodies * 6) % 2 ^ 32 = 6 * s.num_bodies := by omega
  obtain ⟨val, hval⟩ : ∃ val : Nat → Nat → α, ∀ b d, val b d =
      s.excitation_force_mag.getD (6 * b + d) 0 * s.regular_wave_amplitude *
        cos (s.regular_wave_omega * t + s.excitation_force_phase.getD d 0) :=
    ⟨_, fun _ _ => rfl⟩
  simp only [← hval]
  unfold RegularWave.GetForceAtTime
  simp only [hdof]
  refine loop_rule
    (fun b (f : List α) => f.length = 6 * s.num_bodies ∧
      ∀ b' d, b' < b → d < 6 → f[6 * b' + d]? = some (val b' d)) _ _ _ _ ?_ ?_ ?_
  · exact ⟨by simp [uninitVec], fun b' d hb' _ => absurd hb' (Nat.not_lt_zero b')⟩
  · intro b f hb hP
    obtain ⟨hlen, hprev⟩ := hP
    have hoff : toInt32 (6 * b) = some (6 * b) := by
      unfold toInt32
      rw [if_pos (by omega)]
    simp only [hoff, Option.bind_eq_bind, Option.some_bind]
    refine loop_rule
      (fun d (g : List α) => g.length = 6 * s.num_bodies ∧
        (∀ b' d', b' < b → d' < 6 → g[6 * b' + d']? = some (val b' d')) ∧
        ∀ d', d' < d → g[6 * b + d']? = some (val b d')) _ _ _ _ ?_ ?_ ?_
    · exact ⟨hlen, hprev, fun d' hd' => absurd hd' (Nat.not_lt_zero d')⟩
    · intro d g hd hQ
      obtain ⟨hglen, hgprev, hgcur⟩ := hQ
      have hidx : toInt32 (6 * b + d) = some (6 * b + d) := by
        unfold toInt32
        rw [if_pos (by omega)]
      have hm : s.excitation_force_mag[6 * b + d]? =
          some (s.excitation_force_mag.getD (6 * b + d) 0) := by
        rw [List.getD_eq_getElem?_getD, List.getElem?_eq_getElem (by omega)]
        rfl
      have hp : s.excitation_force_phase[d]? =
          some (s.excitation_force_phase.getD d 0) := by
        rw [List.getD_eq_getElem?_getD, List.getElem?_eq_getElem (by omega)]
        rfl
      simp only [hidx, hm, hp, Option.some_bind, ← hval]
      refine ⟨g.set (6 * b + d) (val b d), writeAt_of_lt g _ _ (by omega), ?_, ?_, ?_⟩
      · simpa using hglen
      · intro b' d' hb' hd'
        exact getElem?_set_of_ne g _ _ _ _ (by omega) (hgprev b' d' hb' hd')
      · intro d' hd'
        by_cases hdd : d' = d
        · subst hdd
          exact List.getElem?_set_self (by omega)
        · exact getElem?_set_of_ne g _ _ _ _ (by omega) (hgcur d' (by omega))
    · intro g hQ
      obtain ⟨hglen, hgprev, hgcur⟩ := hQ
      refine ⟨hglen, ?_⟩
      intro b' d hb' hd
      by_cases hbb : b' = b
      · subst hbb
        exact hgcur d hd
      · exact hgprev b' d (by omega) hd
  · intro f hP
    exact hP

/-- C2 (the code at the failing input): two bodies, all magnitudes 1, amplitude 1,
`omega = 1`, phase 0 for body 0 and `π` for body 1, `t = 0`.  Entry 6 (body 1, degree of
freedom 0) of the vector returned is `cos 0 = 1`, computed with the phase of body 0, while
the entry's own magnitude and phase give `cos π = -1`. -/
theorem RegularWave_GetForceAtTime_phase_of_body0 :
    ∃ f : List ℝ,
      RegularWave.GetForceAtTime Real.cos (fun _ => 0) (twoBodyRegular Real.pi) 0 = some f ∧
      f[6 * 1 + 0]? = some 1 ∧
      (twoBodyRegular Real.pi).excitation_force_mag.getD (6 * 1 + 0) 0 *
        (twoBodyRegular Real.pi).regular_wave_amplitude *
        Real.cos ((twoBodyRegular Real.pi).regular_wave_omega * 0 +
          (twoBodyRegular Real.pi).excitation_force_phase.getD (6 * 1 + 0) 0) = -1 := by
  obtain ⟨f, hf, _, hval⟩ := RegularWave_GetForceAtTime_entries Real.cos (fun _ => 0)
    (twoBodyRegular Real.pi) 0 (by simp [twoBodyRegular]) (by simp [twoBodyRegular])
    (by simp [twoBodyRegular])
  refine ⟨f, hf, ?_, ?_⟩
  · rw [hval 1 0 (by simp [twoBodyRegular]) (by norm_num)]
    simp [twoBodyRegular]
  · simp [twoBodyRegular]

/-! ## `RegularWave::Initialize` -/

/-- The read of the last entry, as `GetOmegaDelta` and `FreeSurfaceElevation` do it. -/
theorem readAt_last {β : Type} (l : List β) (x : β) (h : l.getLast? = some x) :
    readAt l ((l.length : Int) - 1) = some x := by
  have hne : l ≠ [] := by
    intro hnil
    rw [hnil] at h
    exact Option.noConfusion h
  have hpos : 0 < l.length := List.length_pos.mpr hne
  have hcast : ((l.length : Int) - 1) = ((l.length - 1 : Nat) : Int) := by omega
  rw [hcast, readAt_natCast, ← List.getLast?_eq_getElem?]
  exact h

/-- The step `GetOmegaDelta` returns: the last tabulated frequency of body 0 over the number
of tabulated frequencies. -/
theorem GetOmegaDelta_eq (s : RegularWave α) (info0 : RegularWaveInfo α) (omega_max : α)
    (hinfo0 : s.info[0]? = some info0) (hlast : info0.freq_list.getLast? = some omega_max) :
    s.GetOmegaDelta = some (omega_max / (info0.freq_list.length : α)) := by
  unfold RegularWave.GetOmegaDelta
  simp only [hinfo0, readAt_last _ _ hlast, Option.bind_eq_bind, Option.some_bind,
    Option.pure_def]

/-- What `RegularWave::Initialize` stores: entry `6b + i` of the magnitude (phase) vector is
the value `GetExcitationMagInterp` (`GetExcitationPhaseInterp`) returns for body `b`, row
`i`, direction 0. -/
theorem Initialize_entries (junk : Nat → α) (s : RegularWave α) (delta x : α)
    (hn : 6 * s.num_bodies < 2 ^ 31) (hdelta : s.GetOmegaDelta = some delta)
    (hd0 : delta ≠ 0) (hx : x = s.regular_wave_omega / delta - 1)
    (hsome : ∀ b i, b < s.num_bodies → i < 6 →
      (s.GetExcitationMagInterp b i 0 x).isSome ∧
      (s.GetExcitationPhaseInterp b i 0 x).isSome) :
    ∃ s', s.Initialize junk = some s' ∧
      ∀ b i, b < s.num_bodies → i < 6 →
        s'.excitation_force_mag[6 * b + i]? = s.GetExcitationMagInterp b i 0 x ∧
        s'.excitation_force_phase[6 * b + i]? = s.GetExcitationPhaseInterp b i 0 x := by
  have hdof : toInt32 ((6 * s.num_bodies) % 2 ^ 32) = some (6 * s.num_bodies) := by
    rw [Nat.mod_eq_of_lt (by omega)]
    unfold toInt32
    rw [if_pos hn]
  unfold RegularWave.Initialize
  simp only [hdof, hdelta, Option.bind_eq_bind, Option.some_bind, if_neg hd0, ← hx]
  refine loop_rule_bind
    (fun b (st : List α × List α) =>
      st.1.length = 6 * s.num_bodies ∧ st.2.length = 6 * s.num_bodies ∧
      ∀ b' i, b' < b → i < 6 →
        st.1[6 * b' + i]? = s.GetExcitationMagInterp b' i 0 x ∧
        st.2[6 * b' + i]? = s.GetExcitationPhaseInterp b' i 0 x) _ _ _ _ _ ?_ ?_ ?_
  · exact ⟨by simp [uninitVec], by simp [uninitVec],
      fun b' i hb' _ => absurd hb' (Nat.not_lt_zero b')⟩
  · intro b st hb hP
    obtain ⟨hl1, hl2, hprev⟩ := hP
    refine loop_rule
      (fun d (g : List α × List α) =>
        g.1.length = 6 * s.num_bodies ∧ g.2.length = 6 * s.num_bodies ∧
        (∀ b' i, b' < b → i < 6 →
          g.1[6 * b' + i]? = s.GetExcitationMagInterp b' i 0 x ∧
          g.2[6 * b' + i]? = s.GetExcitationPhaseInterp b' i 0 x) ∧
        ∀ i, i < d →
          g.1[6 * b + i]? = s.GetExcitationMagInterp b i 0 x ∧
          g.2[6 * b + i]? = s.GetExcitationPhaseInterp b i 0 x) _ _ _ _ ?_ ?_ ?_
    · exact ⟨hl1, hl2, hprev, fun i hi => absurd hi (Nat.not_lt_zero i)⟩
    · intro d g hd hQ
      obtain ⟨hg1, hg2, hgprev, hgcur⟩ := hQ
      have hoff : toInt32 (6 * b) = some (6 * b) := by
        unfold toInt32
        rw [if_pos (by omega)]
      have hidx : toInt32 (6 * b + d) = some (6 * b + d) := by
        unfold toInt32
        rw [if_pos (by omega)]
      obtain ⟨hm, hp⟩ := hsome b d hb hd
      obtain ⟨mv, hmv⟩ := Option.isSome_iff_exists.mp hm
      obtain ⟨pv, hpv⟩ := Option.isSome_iff_exists.mp hp
      simp only [hoff, hidx, hmv, hpv, Option.bind_eq_bind, Option.some_bind, Option.pure_def,
        writeAt_of_lt g.1 (6 * b + d) mv (by omega), writeAt_of_lt g.2 (6 * b + d) pv (by omega)]
      refine ⟨_, rfl, by simpa using hg1, by simpa using hg2, ?_, ?_⟩
      · intro b' i hb' hi
        obtain ⟨h1, h2⟩ := hgprev b' i hb' hi
        exact ⟨getElem?_set_of_ne g.1 _ _ _ _ (by omega) h1,
          getElem?_set_of_ne g.2 _ _ _ _ (by omega) h2⟩
      · intro i hi
        by_cases hid : i = d
        · subst hid
          exact ⟨by rw [hmv]; exact List.getElem?_set_self (by omega),
            by rw [hpv]; exact List.getElem?_set_self (by omega)⟩
        · obtain ⟨h1, h2⟩ := hgcur i (by omega)
          exact ⟨getElem?_set_of_ne g.1 _ _ _ _ (by omega) h1,
            getElem?_set_of_ne g.2 _ _ _ _ (by omega) h2⟩
    · intro g hQ
      obtain ⟨hg1, hg2, hgprev, hgcur⟩ := hQ
      refine ⟨hg1, hg2, ?_⟩
      intro b' i hb' hi
      by_cases hbb : b' = b
      · subst hbb
        exact hgcur i hi
      · exact hgprev b' i (by omega) hi
  · intro st hP
    obtain ⟨_, _, hall⟩ := hP
    exact ⟨_, rfl, hall⟩

/-- The value `GetExcitationMagInterp` returns when its two table reads succeed. -/
theorem GetExcitationMagInterp_eq (s : RegularWave α) (infob : RegularWaveInfo α)
    (b i j : Nat) (x Mk Mk1 : α) (hinfo : s.info[b]? = some infob)
    (hk : tensorAt infob.excitation_mag_matrix i j ⌊x⌋ = some Mk)
    (hk1 : tensorAt infob.excitation_mag_matrix i j (⌊x⌋ + 1) = some Mk1) :
    s.GetExcitationMagInterp b i j x = some (Mk + (x - (⌊x⌋ : α)) * (Mk1 - Mk)) := by
  unfold RegularWave.GetExcitationMagInterp
  simp only [hinfo, hk, hk1, Option.bind_eq_bind, Option.some_bind, Option.pure_def]
  rw [add_comm]

/-- The value `GetExcitationPhaseInterp` returns when its two table reads succeed. -/
theorem GetExcitationPhaseInterp_eq (s : RegularWave α) (infob : RegularWaveInfo α)
    (b i j : Nat) (x Pk Pk1 : α) (hinfo : s.info[b]? = some infob)
    (hk : tensorAt infob.excitation_phase_matrix i j ⌊x⌋ = some Pk)
    (hk1 : tensorAt infob.excitation_phase_matrix i j (⌊x⌋ + 1) = some Pk1) :
    s.GetExcitationPhaseInterp b i j x = some (Pk + (x - (⌊x⌋ : α)) * (Pk1 - Pk)) := by
  unfold RegularWave.GetExcitationPhaseInterp
  simp only [hinfo, hk, hk1, Option.bind_eq_bind, Option.some_bind, Option.pure_def]
  rw [add_comm]

/-- C10: let `omega_max` be the last of the `N` tabulated frequencies of body 0,
`delta_omega = omega_max / N`, `x = regular_wave_omega / delta_omega - 1` and `k = floor(x)`.
When the tables of every body hold the entries `k` and `k + 1` of every row (direction 0),
`RegularWave::Initialize` succeeds, and for every body `b` and degree of freedom `i` the
stored `excitation_force_mag[6b+i]` is `M[k] + (x - k) * (M[k+1] - M[k])` with `M` the
magnitude row `i` of body `b`, the stored phase is the same interpolation of the phase row;
when `x` is an integer both are the tabulated values at index `x`. -/
theorem RegularWave_Initialize_interpolates (junk : Nat → α) (s : RegularWave α)
    (info0 : RegularWaveInfo α) (omega_max x : α)
    (hn : 6 * s.num_bodies < 2 ^ 31)
    (hinfo0 : s.info[0]? = some info0) (hlast : info0.freq_list.getLast? = some omega_max)
    (hmax : omega_max ≠ 0)
    (hx : x = s.regular_wave_omega / (omega_max / (info0.freq_list.length : α)) - 1)
    (hreads : ∀ b i, b < s.num_bodies → i < 6 → ∃ infob, s.info[b]? = some infob ∧
      (tensorAt infob.excitation_mag_matrix i 0 ⌊x⌋).isSome ∧
      (tensorAt infob.excitation_mag_matrix i 0 (⌊x⌋ + 1)).isSome ∧
      (tensorAt infob.excitation_phase_matrix i 0 ⌊x⌋).isSome ∧
      (tensorAt infob.excitation_phase_matrix i 0 (⌊x⌋ + 1)).isSome) :
    ∃ s', s.Initialize junk = some s' ∧
      ∀ b i infob, b < s.num_bodies → i < 6 → s.info[b]? = some infob →
        (∀ Mk Mk1, tensorAt infob.excitation_mag_matrix i 0 ⌊x⌋ = some Mk →
          tensorAt infob.excitation_mag_matrix i 0 (⌊x⌋ + 1) = some Mk1 →
          s'.excitation_force_mag[6 * b + i]? = some (Mk + (x - (⌊x⌋ : α)) * (Mk1 - Mk)) ∧
          (x = (⌊x⌋ : α) → s'.excitation_force_mag[6 * b + i]? = some Mk)) ∧
        (∀ Pk Pk1, tensorAt infob.excitation_phase_matrix i 0 ⌊x⌋ = some Pk →
          tensorAt infob.excitation_phase_matrix i 0 (⌊x⌋ + 1) = some Pk1 →
          s'.excitation_force_phase[6 * b + i]? = some (Pk + (x - (⌊x⌋ : α)) * (Pk1 - Pk)) ∧
          (x = (⌊x⌋ : α) → s'.excitation_force_phase[6 * b + i]? = some Pk)) := by
  have hne : info0.freq_list ≠ [] := by
    intro hnil
    rw [hnil] at hlast
    exact Option.noConfusion hlast
  have hN : (info0.freq_list.length : α) ≠ 0 :=
    Nat.cast_ne_zero.mpr (Nat.pos_iff_ne_zero.mp (List.length_pos.mpr hne))
  obtain ⟨s', hs', hent⟩ := Initialize_entries junk s _ x hn
    (GetOmegaDelta_eq s info0 omega_max hinfo0 hlast) (div_ne_zero hmax hN) hx
    (by
      intro b i hb hi
      obtain ⟨infob, hinfo, h1, h2, h3, h4⟩ := hreads b i hb hi
      obtain ⟨Mk, hMk⟩ := Option.isSome_iff_exists.mp h1
      obtain ⟨Mk1, hMk1⟩ := Option.isSome_iff_exists.mp h2
      obtain ⟨Pk, hPk⟩ := Option.isSome_iff_exists.mp h3
      obtain ⟨Pk1, hPk1⟩ := Option.isSome_iff_exists.mp h4
      rw [GetExcitationMagInterp_eq s infob b i 0 x Mk Mk1 hinfo hMk hMk1,
        GetExcitationPhaseInterp_eq s infob b i 0 x Pk Pk1 hinfo hPk hPk1]
      exact ⟨rfl, rfl⟩)
  refine ⟨s', hs', ?_⟩
  intro b i infob hb hi hinfo
  obtain ⟨hm, hp⟩ := hent b i hb hi
  constructor
  · intro Mk Mk1 hMk hMk1
    rw [hm, GetExcitationMagInterp_eq s infob b i 0 x Mk Mk1 hinfo hMk hMk1]
    refine ⟨rfl, ?_⟩
    intro hint
    rw [sub_eq_zero.mpr hint, zero_mul, add_zero]
  · intro Pk Pk1 hPk hPk1
    rw [hp, GetExcitationPhaseInterp_eq s infob b i 0 x Pk Pk1 hinfo hPk hPk1]
    refine ⟨rfl, ?_⟩
    intro hint
    rw [sub_eq_zero.mpr hint, zero_mul, add_zero]

/-- C10 (witness): one body, tabulated frequencies `1, 2, 3`, target frequency `5/2`, so
`delta_omega = 1`, `x = 3/2`, `k = 1`: the magnitude row `10, 20, 30` gives 25 and the phase
row `0, 1, 2` gives `3/2`. -/
theorem RegularWave_Initialize_interpolates_witness :
    ∃ s', tabulatedRegular.Initialize (fun _ => 0) = some s' ∧
      s'.excitation_force_mag[6 * 0 + 0]? = some 25 ∧
      s'.excitation_force_phase[6 * 0 + 0]? = some (3 / 2) := by
  have hf : ⌊(3 / 2 : ℚ)⌋ = 1 := by
    rw [Int.floor_eq_iff]
    norm_num
  obtain ⟨s', hs', hent⟩ := RegularWave_Initialize_interpolates (fun _ => (0 : ℚ))
    tabulatedRegular tabulatedInfo 3 (3 / 2)
    (by simp [tabulatedRegular]) rfl rfl (by norm_num)
    (by norm_num [tabulatedRegular, tabulatedInfo])
    (by
      intro b i hb hi
      have hb0 : b = 0 := by
        have : b < 1 := hb
        omega
      subst hb0
      refine ⟨tabulatedInfo, rfl, ?_⟩
      rw [hf]
      interval_cases i <;> simp [tabulatedInfo, tensorAt, readAt, List.replicate])
  refine ⟨s', hs', ?_, ?_⟩
  · have h := (hent 0 0 tabulatedInfo (by simp [tabulatedRegular]) (by norm_num) rfl).1 20 30
      (by rw [hf]; simp [tabulatedInfo, tensorAt, readAt, List.replicate])
      (by rw [hf]; simp [tabulatedInfo, tensorAt, readAt, List.replicate])
    rw [h.1, hf]
    norm_num
  · have h := (hent 0 0 tabulatedInfo (by simp [tabulatedRegular]) (by norm_num) rfl).2 1 2
      (by rw [hf]; simp [tabulatedInfo, tensorAt, readAt, List.replicate])
      (by rw [hf]; simp [tabulatedInfo, tensorAt, readAt, List.replicate])
    rw [h.1, hf]
    norm_num

/-! ## `FreeSurfaceElevation` -/

/-- The sequence of draws has the requested length. -/
theorem draws_length {σ : Type} (dist : σ → α × σ) (n : Nat) (g : σ) :
    (draws dist n g).length = n := by
  induction n generalizing g with
  | zero => rfl
  | succ k ih => simp [draws, ih]

/-- The `k`-th draw is made from the generator advanced `k` times. -/
theorem draws_getElem? {σ : Type} (dist : σ → α × σ) (n : Nat) (g : σ) (k : Nat)
    (hk : k < n) :
    (draws dist n g)[k]? = some (dist ((fun g => (dist g).2)^[k] g)).1 := by
  induction n generalizing g k with
  | zero => exact absurd hk (Nat.not_lt_zero k)
  | succ m ih =>
    cases k with
    | zero => simp [draws]
    | succ k => simpa [draws] using ih (dist g).2 k (by omega)

/-- The loop that fills `phases` stores the draws in the order they are made. -/
theorem drawPhases_eq {σ : Type} (dist : σ → α × σ) (n : Nat) (g : σ) :
    ∃ g', drawPhases dist n g = some (draws dist n g, g') := by
  unfold drawPhases
  obtain ⟨st, hst, hlen, hg, hval⟩ := loop_inv
    (fun i (st : List α × σ) => st.1.length = n ∧ st.2 = (fun g => (dist g).2)^[i] g ∧
      ∀ k, k < i → st.1[k]? = some (dist ((fun g => (dist g).2)^[k] g)).1)
    n (fun i st => do
      let phases ← writeAt st.1 i (dist st.2).1
      pure (phases, (dist st.2).2))
    (List.replicate n 0, g)
    ⟨by simp, rfl, fun k hk => absurd hk (Nat.not_lt_zero k)⟩
    (by
      intro i st hi hP
      obtain ⟨hlen, hg, hval⟩ := hP
      simp only [writeAt_of_lt st.1 i _ (by omega), Option.bind_eq_bind, Option.some_bind,
        Option.pure_def]
      refine ⟨_, rfl, by simpa using hlen, ?_, ?_⟩
      · simp only [hg, Function.iterate_succ_apply']
      · intro k hk
        by_cases hki : k = i
        · subst hki
          simp only [hg]
          exact List.getElem?_set_self (by omega)
        · exact getElem?_set_of_ne st.1 _ _ _ _ hki (hval k (by omega)))
  refine ⟨st.2, ?_⟩
  rw [hst]
  have h1 : st.1 = draws dist n g := by
    apply List.ext_getElem?
    intro k
    by_cases hk : k < n
    · rw [hval k hk, draws_getElem? dist n g k hk]
    · rw [List.getElem?_eq_none (by omega),
        List.getElem?_eq_none (by rw [draws_length]; omega)]
  rw [← h1]

/-- An in-bounds read returns the entry `getD` gives. -/
theorem getElem?_eq_some_getD {β : Type} (l : List β) (i : Nat) (d : β) (h : i < l.length) :
    l[i]? = some (l.getD i d) := by
  rw [List.getD_eq_getElem?_getD, List.getElem?_eq_getElem h]
  rfl

/-- C4: for a frequency grid `f` of `N >= 1` samples, a spectral-density series `S` of the
same length, a time grid and a seed, `FreeSurfaceElevation` returns one elevation sample
per time point with
`eta[j] = sum over i of sqrt(2 * S_i * delta_f) * cos(2 * pi * f_i * t_j + phi_i)`, where
`delta_f = f_(N-1) / N` and `phi_i` is the `i`-th draw, in frequency order, from the
generator seeded with `seed`. -/
theorem FreeSurfaceElevation_formula {σ : Type} (sqrt cos : α → α) (pi : α)
    (mkRng : Int → σ) (dist : σ → α × σ) (f S time : List α) (seed : Int) (f_last : α)
    (hlast : f.getLast? = some f_last) (hS : S.length = f.length) :
    ∃ eta : List α,
      FreeSurfaceElevation sqrt cos pi mkRng dist f S time seed = some eta ∧
      eta.length = time.length ∧
      ∀ (j : Nat) (tj : α), time[j]? = some tj →
        eta[j]? = some (∑ i ∈ Finset.range f.length,
          sqrt (2 * S.getD i 0 * (f_last / (f.length : α))) *
            cos (2 * pi * f.getD i 0 * tj +
              (draws dist f.length (mkRng seed)).getD i 0)) := by
  obtain ⟨g', hdraw⟩ := drawPhases_eq dist f.length (mkRng seed)
  obtain ⟨term, hterm⟩ : ∃ term : Nat → Nat → α, ∀ i j, term i j =
      sqrt (2 * S.getD i 0 * (f_last / (f.length : α))) *
        cos (time.getD j 0 * (2 * pi * f.getD i 0) +
          (draws dist f.length (mkRng seed)).getD i 0) := ⟨_, fun _ _ => rfl⟩
  have hgoal : ∃ eta : List α,
      FreeSurfaceElevation sqrt cos pi mkRng dist f S time seed = some eta ∧
      eta.length = time.length ∧
      ∀ j, j < time.length → eta[j]? = some (∑ i ∈ Finset.range S.length, term i j) := by
    unfold FreeSurfaceElevation
    simp only [readAt_last f f_last hlast, List.length_map, hdraw, Option.bind_eq_bind,
      Option.some_bind]
    refine loop_rule
      (fun i (eta : List α) => eta.length = time.length ∧
        ∀ j, j < time.length → eta[j]? = some (∑ i' ∈ Finset.range i, term i' j))
      _ _ _ _ ?_ ?_ ?_
    · exact ⟨by simp, fun j hj => by simp [hj]⟩
    · intro i eta hi hP
      obtain ⟨hlen, hprev⟩ := hP
      refine loop_rule
        (fun j (e : List α) => e.length = time.length ∧
          (∀ j', j' < j → e[j']? = some (∑ i' ∈ Finset.range (i + 1), term i' j')) ∧
          ∀ j', j ≤ j' → j' < time.length →
            e[j']? = some (∑ i' ∈ Finset.range i, term i' j')) _ _ _ _ ?_ ?_ ?_
      · exact ⟨hlen, fun j' hj' => absurd hj' (Nat.not_lt_zero j'),
          fun j' _ hj' => hprev j' hj'⟩
      · intro j e hj hQ
        obtain ⟨helen, hdone, htodo⟩ := hQ
        have ha : (List.map sqrt (List.map (fun S => 2 * S * (f_last / (f.length : α))) S))[i]? =
            some (sqrt (2 * S.getD i 0 * (f_last / (f.length : α)))) := by
          simp only [List.getElem?_map, getElem?_eq_some_getD S i 0 hi, Option.map_some']
        have hw : matAt (List.map (fun t => List.map (fun w => t * w)
              (List.map (fun f => 2 * pi * f) f)) time) j i =
            some (time.getD j 0 * (2 * pi * f.getD i 0)) := by
          simp only [matAt, List.getElem?_map, getElem?_eq_some_getD time j 0 hj,
            getElem?_eq_some_getD f i 0 (by omega), Option.map_some', Option.some_bind]
        have hp : (draws dist f.length (mkRng seed))[i]? =
            some ((draws dist f.length (mkRng seed)).getD i 0) :=
          getElem?_eq_some_getD _ i 0 (by rw [draws_length]; omega)
        have he := htodo j (le_refl j) hj
        simp only [ha, hw, hp, he, Option.bind_eq_bind, Option.some_bind]
        refine ⟨_, writeAt_of_lt e j _ (by omega), by simpa using helen, ?_, ?_⟩
        · intro j' hj'
          by_cases hjj : j' = j
          · subst hjj
            rw [List.getElem?_set_self (by omega), Finset.sum_range_succ, hterm i j']
          · exact getElem?_set_of_ne e _ _ _ _ hjj (hdone j' (by omega))
        · intro j' hle hlt
          exact getElem?_set_of_ne e _ _ _ _ (by omega) (htodo j' (by omega) hlt)
      · intro e hQ
        obtain ⟨helen, hdone, _⟩ := hQ
        exact ⟨helen, hdone⟩
    · intro eta hP
      exact hP
  obtain ⟨eta, heta, hlen, hval⟩ := hgoal
  refine ⟨eta, heta, hlen, ?_⟩
  intro j tj htj
  have hj : j < time.length := by
    by_contra hc
    rw [List.getElem?_eq_none (by omega)] at htj
    exact Option.noConfusion htj
  have htj' : time.getD j 0 = tj := by
    have := getElem?_eq_some_getD time j 0 hj
    rw [htj] at this
    exact (Option.some.inj this).symm
  rw [hval j hj, hS]
  congr 1
  apply Finset.sum_congr rfl
  intro i _
  rw [hterm i j, htj']
  congr 2
  ring

/-- C4 (witness): two frequencies, three time points, the real `sqrt`, `cos` and `π`, and a
counter standing for the generator (the `i`-th draw from seed 5 is `5 + i`). -/
theorem FreeSurfaceElevation_formula_witness :
    ∃ eta : List ℝ,
      FreeSurfaceElevation Real.sqrt Real.cos Real.pi (fun seed => seed.toNat)
        (fun g : Nat => ((g : ℝ), g + 1)) [1, 2] [3, 4] [0, 1, 2] 5 = some eta ∧
      eta.length = [(0 : ℝ), 1, 2].length ∧
      ∀ (j : Nat) (tj : ℝ), [(0 : ℝ), 1, 2][j]? = some tj →
        eta[j]? = some (∑ i ∈ Finset.range [(1 : ℝ), 2].length,
          Real.sqrt (2 * [(3 : ℝ), 4].getD i 0 * (2 / ([(1 : ℝ), 2].length : ℝ))) *
            Real.cos (2 * Real.pi * [(1 : ℝ), 2].getD i 0 * tj +
              (draws (fun g : Nat => ((g : ℝ), g + 1)) [(1 : ℝ), 2].length
                ((fun seed : Int => seed.toNat) 5)).getD i 0)) :=
  FreeSurfaceElevation_formula Real.sqrt Real.cos Real.pi (fun seed => seed.toNat)
    (fun g : Nat => ((g : ℝ), g + 1)) [1, 2] [3, 4] [0, 1, 2] 5 2 rfl rfl

/-! ## `PiersonMoskowitzSpectrumHz`: sign and frame -/

/-- On a grid that is ascending, with `Tp` and the frequencies different from zero, the call
returns the grid as it was together with the map of the density formula. -/
theorem PiersonMoskowitzSpectrumHz_sorted (exp : α → α) (f : List α) (Hs Tp : α)
    (hTp : 0 < Tp) (hsorted : f.Sorted (fun a b => a ≤ b)) (hpos : ∀ x ∈ f, 0 < x) :
    PiersonMoskowitzSpectrumHz exp f Hs Tp = some (f, f.map (fun fi =>
      1.25 * (1 / Tp) ^ 4 * (Hs / 2) ^ 2 * fi ^ (-5 : ℤ) *
        exp (-1.25 * (1 / Tp) ^ 4 * fi ^ (-4 : ℤ)))) := by
  have hs : f.insertionSort (fun a b => a ≤ b) = f := List.Sorted.insertionSort_eq hsorted
  have h0 : ¬ (Tp = 0 ∨ (0 : α) ∈ f) := by
    rintro (h | h)
    · exact (ne_of_gt hTp) h
    · exact lt_irrefl _ (hpos 0 h)
  simp only [PiersonMoskowitzSpectrumHz, hs]
  rw [if_neg h0]

/-- In double arithmetic the factor to the left of `std::exp` is NaN or satisfies `d >= 0.0`,
for `Tp > 0` and a positive frequency. -/
theorem PiersonMoskowitzSpectrumHz_magnitude_sign (Hs Tp fi : α) (hTp : 0 < Tp)
    (hfi : 0 < fi) :
    PiersonMoskowitzSpectrumHz_magnitude Hs Tp fi = .nan ∨
      (PiersonMoskowitzSpectrumHz_magnitude Hs Tp fi).nonneg := by
  unfold PiersonMoskowitzSpectrumHz_magnitude
  apply Double.mul_nonneg_or_nan
  · apply Double.mul_nonneg_or_nan
    · apply Double.mul_nonneg_or_nan
      · right
        show (0 : α) ≤ 1.25
        norm_num
      · exact Or.inr (Double.pow_nonneg _ _ (Double.one_div_nonneg Tp hTp))
    · exact Double.sq_half_nonneg_or_nan Hs
  · exact Or.inr (Double.pow_nonneg _ _ hfi.le)

/-- In double arithmetic the argument of `std::exp` is NaN or satisfies `d <= 0.0`, for
`Tp > 0` and a positive frequency. -/
theorem PiersonMoskowitzSpectrumHz_exponent_sign (Tp fi : α) (hTp : 0 < Tp) (hfi : 0 < fi) :
    PiersonMoskowitzSpectrumHz_exponent Tp fi = .nan ∨
      (PiersonMoskowitzSpectrumHz_exponent Tp fi).nonpos := by
  unfold PiersonMoskowitzSpectrumHz_exponent
  apply Double.mul_nonpos_or_nan
  · apply Double.mul_nonpos_or_nan
    · right
      show (-1.25 : α) ≤ 0
      norm_num
    · exact Or.inr (Double.pow_nonneg _ _ (Double.one_div_nonneg Tp hTp))
  · exact Or.inr (Double.pow_nonneg _ _ hfi.le)

/-- C13 (counterexample): `Hs = 2`, `Tp = 2 ^ (-270)` and the grid `[1, 2]`, in double
arithmetic.  `1 / Tp = 2 ^ 270` is a double, `std::pow(1 / Tp, 4) = 2 ^ 1080` overflows to
`+inf`, the argument of `std::exp` is `-inf`, `std::exp(-inf) = 0`, and the density is
`inf * 0 = NaN` for either frequency; NaN does not satisfy `d >= 0.0`. -/
theorem PiersonMoskowitzSpectrumHz_binary64_nan :
    ((0 : ℝ) < 2 ∧ (0 : ℝ) < 1 / 2 ^ 270) ∧
      PiersonMoskowitzSpectrumHz_binary64 Real.exp [(1 : ℝ), 2] 2 (1 / 2 ^ 270) =
        ([1, 2], [.nan, .nan]) ∧
      ¬ (Double.nan : Double ℝ).nonneg := by
  have r1 : Double.round ((1 : ℝ) / (1 / 2 ^ 270)) = .fin (2 ^ 270) := by
    have h : (1 : ℝ) / (1 / 2 ^ 270) = 2 ^ 270 := by norm_num
    rw [h]
    exact Double.round_eq_fin _ 1 270 (by norm_num) (by norm_num) (by norm_num) (by norm_num)
  have r2 : Double.round (((2 : ℝ) ^ 270) ^ (4 : Int)) = .pinf :=
    Double.round_eq_pinf _ 1 1080 (by norm_num) (by norm_num) (by norm_num) (by positivity)
      (by norm_num)
  have r3 : Double.round ((2 : ℝ) / 2) = .fin 1 := by
    have h : (2 : ℝ) / 2 = 1 := by norm_num
    rw [h]
    exact Double.round_eq_fin _ 1 0 (by norm_num) (by norm_num) (by norm_num) (by norm_num)
  have r4 : ∀ n : Int, Double.round ((1 : ℝ) ^ n) = .fin 1 := by
    intro n
    rw [one_zpow]
    exact Double.round_eq_fin _ 1 0 (by norm_num) (by norm_num) (by norm_num) (by norm_num)
  have r5 : Double.round ((2 : ℝ) ^ (-5 : Int)) = .fin (2 ^ (-5 : Int)) :=
    Double.round_eq_fin _ 1 (-5) (by norm_num) (by norm_num) (by norm_num)
      (by rw [abs_of_pos (by positivity)]; norm_num)
  have r6 : Double.round ((2 : ℝ) ^ (-4 : Int)) = .fin (2 ^ (-4 : Int)) :=
    Double.round_eq_fin _ 1 (-4) (by norm_num) (by norm_num) (by norm_num)
      (by rw [abs_of_pos (by positivity)]; norm_num)
  have hp : (1 : ℝ) / 2 ^ 270 ≠ 0 := by positivity
  have hp4 : ((Double.fin (1 : ℝ)).div (.fin (1 / 2 ^ 270))).pow 4 = .pinf := by
    rw [Double.fin_div_fin _ _ hp, r1, Double.fin_pow _ 4 (by norm_num) (by positivity), r2]
  have hh2 : ((Double.fin (2 : ℝ)).div (.fin 2)).pow 2 = .fin 1 := by
    rw [Double.fin_div_fin _ _ (by norm_num), r3,
      Double.fin_pow _ 2 (by norm_num) (by norm_num), r4]
  have hm : ∀ fi : ℝ, (∃ v : ℝ, 0 < v ∧ (Double.fin fi).pow (-5) = .fin v) →
      PiersonMoskowitzSpectrumHz_magnitude 2 (1 / 2 ^ 270) fi = .pinf := by
    rintro fi ⟨v, hv, hfv⟩
    unfold PiersonMoskowitzSpectrumHz_magnitude
    rw [hp4, hh2, hfv, Double.fin_mul_pinf, if_pos (by norm_num), Double.pinf_mul_fin,
      if_pos (by norm_num), Double.pinf_mul_fin, if_pos hv]
  have he : ∀ fi : ℝ, (∃ v : ℝ, 0 < v ∧ (Double.fin fi).pow (-4) = .fin v) →
      PiersonMoskowitzSpectrumHz_exponent (1 / 2 ^ 270) fi = .ninf := by
    rintro fi ⟨v, hv, hfv⟩
    unfold PiersonMoskowitzSpectrumHz_exponent
    rw [hp4, hfv, Double.fin_mul_pinf, if_neg (by norm_num), if_pos (by norm_num),
      Double.ninf_mul_fin, if_pos hv]
  have h15 : (Double.fin (1 : ℝ)).pow (-5) = .fin 1 := by
    rw [Double.fin_pow _ _ (by norm_num) (by norm_num), r4]
  have h14 : (Double.fin (1 : ℝ)).pow (-4) = .fin 1 := by
    rw [Double.fin_pow _ _ (by norm_num) (by norm_num), r4]
  have h25 : (Double.fin (2 : ℝ)).pow (-5) = .fin (2 ^ (-5 : Int)) := by
    rw [Double.fin_pow _ _ (by norm_num) (by norm_num), r5]
  have h24 : (Double.fin (2 : ℝ)).pow (-4) = .fin (2 ^ (-4 : Int)) := by
    rw [Double.fin_pow _ _ (by norm_num) (by norm_num), r6]
  have hd : ∀ fi : ℝ, PiersonMoskowitzSpectrumHz_magnitude 2 (1 / 2 ^ 270) fi = .pinf →
      PiersonMoskowitzSpectrumHz_exponent (1 / 2 ^ 270) fi = .ninf →
      (PiersonMoskowitzSpectrumHz_magnitude 2 (1 / 2 ^ 270) fi).mul
        ((PiersonMoskowitzSpectrumHz_exponent (1 / 2 ^ 270) fi).exp Real.exp) = .nan := by
    intro fi h1 h2
    rw [h1, h2]
    show (Double.pinf).mul (.fin (0 : ℝ)) = .nan
    rw [Double.pinf_mul_fin, if_neg (lt_irrefl _), if_neg (lt_irrefl _)]
  have hs : ([(1 : ℝ), 2]).insertionSort (fun a b => a ≤ b) = [1, 2] := by
    simp [List.insertionSort, List.orderedInsert]
  refine ⟨⟨by norm_num, by positivity⟩, ?_, fun h => h⟩
  unfold PiersonMoskowitzSpectrumHz_binary64
  simp only [hs, List.map_cons, List.map_nil]
  rw [hd 1 (hm 1 ⟨1, one_pos, h15⟩) (he 1 ⟨1, one_pos, h14⟩),
    hd 2 (hm 2 ⟨_, by positivity, h25⟩) (he 2 ⟨_, by positivity, h24⟩)]

/-- C13 (amended): for `Hs > 0`, `Tp > 0` and an ascending grid of positive frequencies, in
double arithmetic: when for every frequency the two products the code forms, the factor
`1.25 * pow(1 / Tp, 4) * pow(Hs / 2, 2) * pow(f, -5)` and the argument
`-1.25 * pow(1 / Tp, 4) * pow(f, -4)` of `std::exp`, are finite doubles (nothing overflows),
every spectral density returned satisfies `d >= 0.0`.  `exp` is a function with values in
`[0, 1]` on arguments that are not positive, as the exponential is. -/
theorem PiersonMoskowitzSpectrumHz_binary64_nonneg (exp : α → α) (f : List α) (Hs Tp : α)
    (hexp : ∀ x, x ≤ 0 → 0 ≤ exp x ∧ exp x ≤ 1) (_hHs : 0 < Hs) (hTp : 0 < Tp)
    (hsorted : f.Sorted (fun a b => a ≤ b)) (hpos : ∀ x ∈ f, 0 < x)
    (hfin : ∀ fi ∈ f, (∃ a, PiersonMoskowitzSpectrumHz_magnitude Hs Tp fi = .fin a) ∧
      ∃ c, PiersonMoskowitzSpectrumHz_exponent Tp fi = .fin c) :
    ∃ S : List (Double α), PiersonMoskowitzSpectrumHz_binary64 exp f Hs Tp = (f, S) ∧
      S.length = f.length ∧ ∀ d ∈ S, d.nonneg := by
  have hs : f.insertionSort (fun a b => a ≤ b) = f := List.Sorted.insertionSort_eq hsorted
  refine ⟨f.map (fun fi => (PiersonMoskowitzSpectrumHz_magnitude Hs Tp fi).mul
      ((PiersonMoskowitzSpectrumHz_exponent Tp fi).exp exp)), ?_, by simp, ?_⟩
  · simp only [PiersonMoskowitzSpectrumHz_binary64, hs]
  intro d hd
  obtain ⟨fi, hfi, rfl⟩ := List.mem_map.mp hd
  obtain ⟨⟨a, ha⟩, c, hc⟩ := hfin fi hfi
  have ha0 : 0 ≤ a := by
    rcases PiersonMoskowitzSpectrumHz_magnitude_sign Hs Tp fi hTp (hpos fi hfi) with h | h
    · rw [ha] at h
      exact Double.noConfusion h
    · rw [ha] at h
      exact h
  have hc0 : c ≤ 0 := by
    rcases PiersonMoskowitzSpectrumHz_exponent_sign Tp fi hTp (hpos fi hfi) with h | h
    · rw [hc] at h
      exact Double.noConfusion h
    · rw [hc] at h
      exact h
  obtain ⟨he0, he1⟩ := hexp c hc0
  rw [ha, hc]
  show ((Double.fin a).mul (Double.round (exp c))).nonneg
  rw [Double.round_of_abs_le_one (exp c) (by rw [abs_of_nonneg he0]; exact he1)]
  exact Double.round_nonneg _ (mul_nonneg ha0 (binary64_nonneg _ he0))

/-- The two products are finite doubles for `Hs = 2`, `Tp = 1` and the frequencies 1 and 2. -/
theorem PiersonMoskowitzSpectrumHz_finite_example :
    ∀ fi ∈ [(1 : ℝ), 2],
      (∃ a, PiersonMoskowitzSpectrumHz_magnitude 2 1 fi = .fin a) ∧
        ∃ c, PiersonMoskowitzSpectrumHz_exponent 1 fi = .fin c := by
  have r1 : ∀ x : ℝ, x = 1 → Double.round x = .fin 1 := by
    intro x hx
    rw [hx]
    exact Double.round_eq_fin _ 1 0 (by norm_num) (by norm_num) (by norm_num) (by norm_num)
  have hp4 : ((Double.fin (1 : ℝ)).div (.fin 1)).pow 4 = .fin 1 := by
    rw [Double.fin_div_fin _ _ (by norm_num), r1 _ (by norm_num),
      Double.fin_pow _ 4 (by norm_num) (by norm_num), r1 _ (by norm_num)]
  have hh2 : ((Double.fin (2 : ℝ)).div (.fin 2)).pow 2 = .fin 1 := by
    rw [Double.fin_div_fin _ _ (by norm_num), r1 _ (by norm_num),
      Double.fin_pow _ 2 (by norm_num) (by norm_num), r1 _ (by norm_num)]
  have ha : Double.round ((1.25 : ℝ) * 1) = .fin 1.25 := by
    have h : (1.25 : ℝ) * 1 = 1.25 := by norm_num
    rw [h]
    exact Double.round_eq_fin _ 5 (-2) (by norm_num) (by norm_num) (by norm_num)
      (by rw [abs_of_pos (by norm_num)]; norm_num)
  have hb : Double.round ((-1.25 : ℝ) * 1) = .fin (-1.25) := by
    have h : (-1.25 : ℝ) * 1 = -1.25 := by norm_num
    rw [h]
    exact Double.round_eq_fin _ (-5) (-2) (by norm_num) (by norm_num) (by norm_num)
      (by rw [abs_of_neg (by norm_num)]; norm_num)
  have h15 : (Double.fin (1 : ℝ)).pow (-5) = .fin 1 := by
    rw [Double.fin_pow _ _ (by norm_num) (by norm_num), r1 _ (by norm_num)]
  have h14 : (Double.fin (1 : ℝ)).pow (-4) = .fin 1 := by
    rw [Double.fin_pow _ _ (by norm_num) (by norm_num), r1 _ (by norm_num)]
  have h25 : (Double.fin (2 : ℝ)).pow (-5) = .fin (2 ^ (-5 : Int)) := by
    rw [Double.fin_pow _ _ (by norm_num) (by norm_num)]
    exact Double.round_eq_fin _ 1 (-5) (by norm_num) (by norm_num) (by norm_num)
      (by rw [abs_of_pos (by positivity)]; norm_num)
  have h24 : (Double.fin (2 : ℝ)).pow (-4) = .fin (2 ^ (-4 : Int)) := by
    rw [Double.fin_pow _ _ (by norm_num) (by norm_num)]
    exact Double.round_eq_fin _ 1 (-4) (by norm_num) (by norm_num) (by norm_num)
      (by rw [abs_of_pos (by positivity)]; norm_num)
  intro fi hfi
  simp only [List.mem_cons, List.mem_singleton, List.not_mem_nil, or_false] at hfi
  rcases hfi with rfl | rfl
  · constructor
    · refine ⟨1.25, ?_⟩
      unfold PiersonMoskowitzSpectrumHz_magnitude
      rw [hp4, hh2, h15, Double.fin_mul_fin, ha, Double.fin_mul_fin, ha, Double.fin_mul_fin, ha]
    · refine ⟨-1.25, ?_⟩
      unfold PiersonMoskowitzSpectrumHz_exponent
      rw [hp4, h14, Double.fin_mul_fin, hb, Double.fin_mul_fin, hb]
  · constructor
    · refine ⟨1.25 * 2 ^ (-5 : Int), ?_⟩
      unfold PiersonMoskowitzSpectrumHz_magnitude
      rw [hp4, hh2, h25, Double.fin_mul_fin, ha, Double.fin_mul_fin, ha, Double.fin_mul_fin]
      exact Double.round_eq_fin _ 5 (-7) (by norm_num) (by norm_num) (by norm_num)
        (by rw [abs_of_pos (by positivity)]; norm_num)
    · refine ⟨-1.25 * 2 ^ (-4 : Int), ?_⟩
      unfold PiersonMoskowitzSpectrumHz_exponent
      rw [hp4, h24, Double.fin_mul_fin, hb, Double.fin_mul_fin]
      exact Double.round_eq_fin _ (-5) (-6) (by norm_num) (by norm_num) (by norm_num)
        (by rw [abs_of_neg (by norm_num)]; norm_num)

/-- C13 (witness): the grid `[1, 2]` with `Hs = 2`, `Tp = 1` and the real exponential. -/
theorem PiersonMoskowitzSpectrumHz_binary64_nonneg_witness :
    ∃ S : List (Double ℝ), PiersonMoskowitzSpectrumHz_binary64 Real.exp [(1 : ℝ), 2] 2 1 =
        ([1, 2], S) ∧
      S.length = [(1 : ℝ), 2].length ∧ ∀ d ∈ S, d.nonneg :=
  PiersonMoskowitzSpectrumHz_binary64_nonneg Real.exp [(1 : ℝ), 2] 2 1
    (fun x hx => ⟨(Real.exp_pos x).le, Real.exp_le_one_iff.mpr hx⟩) (by norm_num) (by norm_num)
    (by simp) (by simp) PiersonMoskowitzSpectrumHz_finite_example

/-- C14: on a grid that satisfies the precondition of the contract (ascending, positive
frequencies, `Tp > 0`) `PiersonMoskowitzSpectrumHz` leaves the grid it was handed with the
same values in the same order; called from `CreateSpectrum` on a provider whose
`spectrum_frequencies` is that grid, the provider afterwards differs from the one before
in `spectral_densities` only. -/
theorem PiersonMoskowitzSpectrumHz_leaves_grid (exp : α → α) (s : IrregularWave α)
    (f : List α) (Hs Tp : α) (hTp : 0 < Tp) (hsorted : f.Sorted (fun a b => a ≤ b))
    (hpos : ∀ x ∈ f, 0 < x) :
    ∃ S : List α, PiersonMoskowitzSpectrumHz exp f Hs Tp = some (f, S) ∧
      ({ s with spectrum_frequencies := f, wave_height := Hs, wave_period := Tp } :
          IrregularWave α).CreateSpectrum exp =
        some { s with
          spectrum_frequencies := f, wave_height := Hs, wave_period := Tp,
          spectral_densities := S } := by
  refine ⟨_, PiersonMoskowitzSpectrumHz_sorted exp f Hs Tp hTp hsorted hpos, ?_⟩
  simp only [IrregularWave.CreateSpectrum,
    PiersonMoskowitzSpectrumHz_sorted exp f Hs Tp hTp hsorted hpos, Option.bind_eq_bind,
    Option.some_bind, Option.pure_def]

/-- C14 (witness): the grid `[1, 2]` in a blank provider, with the real exponential. -/
theorem PiersonMoskowitzSpectrumHz_leaves_grid_witness :
    ∃ S : List ℝ, PiersonMoskowitzSpectrumHz Real.exp [(1 : ℝ), 2] 2 1 = some ([1, 2], S) ∧
      ({ blankIrregular (1 : ℝ) 1 with
          spectrum_frequencies := [1, 2], wave_height := 2, wave_period := 1 } :
          IrregularWave ℝ).CreateSpectrum Real.exp =
        some { blankIrregular (1 : ℝ) 1 with
          spectrum_frequencies := [1, 2], wave_height := 2, wave_period := 1,
          spectral_densities := S } :=
  PiersonMoskowitzSpectrumHz_leaves_grid Real.exp (blankIrregular 1 1) [1, 2] 2 1 (by norm_num)
    (by simp) (by simp)

/-! ## `RegularWave::Initialize`: validity of the table indices -/

/-- A signed read succeeds exactly on the indices `0 .. length - 1`. -/
theorem readAt_isSome_iff {β : Type} (v : List β) (i : Int) :
    (readAt v i).isSome ↔ 0 ≤ i ∧ i < (v.length : Int) := by
  unfold readAt
  by_cases h : 0 ≤ i
  · rw [if_pos h]
    constructor
    · intro hs
      obtain ⟨x, hx⟩ := Option.isSome_iff_exists.mp hs
      obtain ⟨hlt, _⟩ := List.getElem?_eq_some.mp hx
      exact ⟨h, by omega⟩
    · rintro ⟨_, hlt⟩
      rw [List.getElem?_eq_getElem (by omega)]
      rfl
  · rw [if_neg h]
    constructor
    · intro hs
      exact absurd hs (by simp)
    · rintro ⟨h0, _⟩
      exact absurd h0 h

/-- With `delta = omega_max / N > 0` and `k = floor(omega / delta - 1)`: `0 <= k` exactly
when `delta <= omega`, and `k + 1 < N` exactly when `omega < omega_max`. -/
theorem interp_index_bounds (N : Nat) (omega omega_max : α) (hN : 1 ≤ N) (hmax : 0 < omega_max) :
    (0 ≤ ⌊omega / (omega_max / (N : α)) - 1⌋ ↔ omega_max / (N : α) ≤ omega) ∧
    (⌊omega / (omega_max / (N : α)) - 1⌋ + 1 < (N : Int) ↔ omega < omega_max) := by
  have hNpos : (0 : α) < (N : α) := by exact_mod_cast hN
  have hd : 0 < omega_max / (N : α) := div_pos hmax hNpos
  constructor
  · rw [Int.floor_nonneg, sub_nonneg, le_div_iff₀ hd, one_mul]
  · have h1 : ⌊omega / (omega_max / (N : α)) - 1⌋ + 1 < (N : Int) ↔
        ⌊omega / (omega_max / (N : α)) - 1⌋ < ((N : Int) - 1) := by omega
    rw [h1, Int.floor_lt]
    push_cast
    rw [sub_lt_sub_iff_right, div_lt_iff₀ hd, mul_div_cancel₀ _ (ne_of_gt hNpos)]

/-- The value of `freq_index_des` when the last tabulated frequency of body 0 is `omega_max`
and the rounded step is not zero. -/
theorem freq_index_des_eq (fl : α → α) (s : RegularWave α) (info0 : RegularWaveInfo α)
    (omega_max : α) (hinfo0 : s.info[0]? = some info0)
    (hlast : info0.freq_list.getLast? = some omega_max)
    (hdelta : fl (omega_max / (info0.freq_list.length : α)) ≠ 0) :
    s.freq_index_des fl =
      some (fl (fl (s.regular_wave_omega /
        fl (omega_max / (info0.freq_list.length : α))) - 1)) := by
  unfold RegularWave.freq_index_des
  simp only [hinfo0, readAt_last _ _ hlast, Option.bind_eq_bind, Option.some_bind,
    Option.pure_def]
  rw [if_neg hdelta]

/-- With exact operations (`fl` the identity) `freq_index_des` is the value that
`RegularWave.Initialize` computes from the step `GetOmegaDelta` returns. -/
theorem freq_index_des_exact (s : RegularWave α) :
    s.freq_index_des (fun x => x) =
      (s.GetOmegaDelta).bind fun wave_omega_delta =>
        if wave_omega_delta = 0 then none
        else some (s.regular_wave_omega / wave_omega_delta - 1) := by
  unfold RegularWave.freq_index_des RegularWave.GetOmegaDelta
  cases h0 : s.info[0]? with
  | none => simp
  | some info0 =>
    cases h1 : readAt info0.freq_list ((info0.freq_list.length : Int) - 1) with
    | none => simp [h1]
    | some omega_max => simp [h1]

/-- In a table row of `N` entries the reads at `floor(x)` and `floor(x) + 1` are both inside
the row exactly when `0 <= x < N - 1`. -/
theorem interp_reads_valid_iff (line : List α) (x : α) (N : Nat) (hlen : line.length = N) :
    ((readAt line ⌊x⌋).isSome ∧ (readAt line (⌊x⌋ + 1)).isSome) ↔
      (0 ≤ x ∧ x < (N : α) - 1) := by
  rw [readAt_isSome_iff, readAt_isSome_iff, hlen]
  have h0 : 0 ≤ ⌊x⌋ ↔ 0 ≤ x := Int.floor_nonneg
  have h1 : ⌊x⌋ < (N : Int) - 1 ↔ x < (N : α) - 1 := by
    rw [Int.floor_lt]
    push_cast
    rfl
  rw [← h0, ← h1]
  constructor
  · rintro ⟨⟨a, _⟩, _, c⟩
    exact ⟨a, by omega⟩
  · rintro ⟨a, c⟩
    exact ⟨⟨a, by omega⟩, by omega, by omega⟩

/-- The interpolation `GetExcitationMagInterp` is defined exactly when its two reads are
inside the table row. -/
theorem GetExcitationMagInterp_isSome_iff (s : RegularWave α) (infob : RegularWaveInfo α)
    (b i : Nat) (line : List α) (x : α) (hinfo : s.info[b]? = some infob)
    (hline : (infob.excitation_mag_matrix[i]?).bind (fun plane => plane[0]?) = some line) :
    (s.GetExcitationMagInterp b i 0 x).isSome ↔
      ((readAt line ⌊x⌋).isSome ∧ (readAt line (⌊x⌋ + 1)).isSome) := by
  unfold RegularWave.GetExcitationMagInterp
  simp only [hinfo, tensorAt, hline, Option.bind_eq_bind, Option.some_bind, Option.pure_def]
  cases readAt line ⌊x⌋ with
  | none => simp
  | some u =>
    cases readAt line (⌊x⌋ + 1) with
    | none => simp
    | some v => simp

/-- The double rounding of the step `0.9 / 7`, of the quotient `0.9 / step` and of the
difference `quotient - 1`, for the double nearest to 0.9. -/
theorem nearTop_roundings :
    binary64 ((8106479329266893 / 2 ^ 53 : ℚ) / ((7 : Nat) : ℚ)) = 4632273902438225 / 2 ^ 55 ∧
      binary64 ((8106479329266893 / 2 ^ 53 : ℚ) / (4632273902438225 / 2 ^ 55)) =
        7881299347898367 / 2 ^ 50 ∧
      binary64 ((7881299347898367 / 2 ^ 50 : ℚ) - 1) = 6755399441055743 / 2 ^ 50 := by
  refine ⟨?_, ?_, ?_⟩
  · have h := binary64_of_near ((8106479329266893 / 2 ^ 53 : ℚ) / ((7 : Nat) : ℚ)) (-3)
      4632273902438225 (by norm_num)
      (by rw [abs_of_pos (by positivity)]; norm_num)
      (by rw [abs_of_pos (by positivity)]; norm_num)
      (by rw [abs_lt]; norm_num)
    rw [h]
    norm_num
  · have h := binary64_of_near ((8106479329266893 / 2 ^ 53 : ℚ) / (4632273902438225 / 2 ^ 55)) 2
      7881299347898367 (by norm_num)
      (by rw [abs_of_pos (by positivity)]; norm_num)
      (by rw [abs_of_pos (by positivity)]; norm_num)
      (by rw [abs_lt]; norm_num)
    rw [h]
    norm_num
  · have h := binary64_representable (α := ℚ) 6755399441055743 (-50) (by norm_num) (by norm_num)
    have e : ((6755399441055743 : Int) : ℚ) * 2 ^ (-50 : Int) =
        7881299347898367 / 2 ^ 50 - 1 := by norm_num
    rw [e] at h
    rw [h]
    norm_num

/-- The double rounding of the step `0.1 / 3`, of the quotient `omega / step` for the double
`omega` just below 0.1, and of the difference `quotient - 1`. -/
theorem belowTop_roundings :
    binary64 ((3602879701896397 / 2 ^ 55 : ℚ) / ((3 : Nat) : ℚ)) = 4803839602528529 / 2 ^ 57 ∧
      binary64 ((7205759403792793 / 2 ^ 56 : ℚ) / (4803839602528529 / 2 ^ 57)) = 3 ∧
      binary64 ((3 : ℚ) - 1) = 2 := by
  refine ⟨?_, ?_, ?_⟩
  · have h := binary64_of_near ((3602879701896397 / 2 ^ 55 : ℚ) / ((3 : Nat) : ℚ)) (-5)
      4803839602528529 (by norm_num)
      (by rw [abs_of_pos (by positivity)]; norm_num)
      (by rw [abs_of_pos (by positivity)]; norm_num)
      (by rw [abs_lt]; norm_num)
    rw [h]
    norm_num
  · have h := binary64_of_near ((7205759403792793 / 2 ^ 56 : ℚ) / (4803839602528529 / 2 ^ 57)) 1
      6755399441055744 (by norm_num)
      (by rw [abs_of_pos (by positivity)]; norm_num)
      (by rw [abs_of_pos (by positivity)]; norm_num)
      (by rw [abs_lt]; norm_num)
    rw [h]
    norm_num
  · have h := binary64_representable (α := ℚ) 1 1 (by norm_num) (by norm_num)
    have e : ((1 : Int) : ℚ) * 2 ^ (1 : Int) = 3 - 1 := by norm_num
    rw [e] at h
    rw [h]
    norm_num

/-- C17 (counterexample): in double arithmetic the equivalence fails in both directions.
With 7 tabulated frequencies and `regular_wave_omega = omega_max` (the double nearest to 0.9),
the step rounds to `0.1285714285714286`, `freq_index_des` to `5.999999999999999`, and the two
reads are at the indices 5 and 6, inside the table: the interpolation returns a value.  With
3 tabulated frequencies, `omega_max` the double nearest to 0.1 and `regular_wave_omega` the
double just below it (above the step), `freq_index_des` rounds to 2 and the read at index 3
is outside the table. -/
theorem RegularWave_reads_valid_at_omega_max :
    (nearTopInfo.freq_list.length = 7 ∧
      nearTopInfo.freq_list.getLast? = some nearTopRegular.regular_wave_omega ∧
      nearTopRegular.freq_index_des binary64 = some (6755399441055743 / 2 ^ 50) ∧
      ⌊(6755399441055743 / 2 ^ 50 : ℚ)⌋ = 5 ∧
      nearTopRegular.GetExcitationMagInterp 0 0 0 (6755399441055743 / 2 ^ 50) =
        some (7881299347898367 / 2 ^ 50)) ∧
    (belowTopInfo.freq_list.length = 3 ∧
      belowTopInfo.freq_list.getLast? = some (3602879701896397 / 2 ^ 55) ∧
      (binary64 ((3602879701896397 / 2 ^ 55 : ℚ) / ((3 : Nat) : ℚ)) ≤
          belowTopRegular.regular_wave_omega ∧
        belowTopRegular.regular_wave_omega < 3602879701896397 / 2 ^ 55) ∧
      belowTopRegular.freq_index_des binary64 = some 2 ∧
      belowTopRegular.GetExcitationMagInterp 0 0 0 2 = none) := by
  obtain ⟨hd, hq, hx⟩ := nearTop_roundings
  obtain ⟨hd2, hq2, hx2⟩ := belowTop_roundings
  have hf : ⌊(6755399441055743 / 2 ^ 50 : ℚ)⌋ = 5 := by
    rw [Int.floor_eq_iff]
    norm_num
  refine ⟨⟨rfl, rfl, ?_, hf, ?_⟩, rfl, rfl, ?_, ?_, ?_⟩
  · rw [freq_index_des_eq binary64 nearTopRegular nearTopInfo (8106479329266893 / 2 ^ 53) rfl rfl
      ?_]
    · show some (binary64 (binary64 ((8106479329266893 / 2 ^ 53 : ℚ) /
        binary64 ((8106479329266893 / 2 ^ 53 : ℚ) / ((7 : Nat) : ℚ))) - 1)) = _
      rw [hd, hq, hx]
    · show binary64 ((8106479329266893 / 2 ^ 53 : ℚ) / ((7 : Nat) : ℚ)) ≠ 0
      rw [hd]
      norm_num
  · simp [RegularWave.GetExcitationMagInterp, nearTopRegular, nearTopInfo, tensorAt, readAt, hf]
    norm_num
  · rw [hd2]
    norm_num [belowTopRegular]
  · rw [freq_index_des_eq binary64 belowTopRegular belowTopInfo (3602879701896397 / 2 ^ 55) rfl
      rfl ?_]
    · show some (binary64 (binary64 ((7205759403792793 / 2 ^ 56 : ℚ) /
        binary64 ((3602879701896397 / 2 ^ 55 : ℚ) / ((3 : Nat) : ℚ))) - 1)) = _
      rw [hd2, hq2, hx2]
    · show binary64 ((3602879701896397 / 2 ^ 55 : ℚ) / ((3 : Nat) : ℚ)) ≠ 0
      rw [hd2]
      norm_num
  · simp [RegularWave.GetExcitationMagInterp, belowTopRegular, belowTopInfo, tensorAt, readAt]

/-- C17 (amended): in `RegularWave::Initialize`, with `N >= 2` tabulated frequencies of which
the last is `omega_max`, a table row of `N` entries and a step `omega_max / N` that does not
round to zero, let `x` be `freq_index_des` as the code computes it, the two quotients and the
subtraction rounded by `fl`.  The two reads at `floor(x)` and `floor(x) + 1` are both inside
the row, and `GetExcitationMagInterp` is defined, exactly when `0 <= x < N - 1`.  When the
three operations are exact (`fl` the identity) and `omega_max > 0`, this is
`omega_max / N <= regular_wave_omega < omega_max`. -/
theorem RegularWave_table_reads_valid_iff (fl : α → α) (s : RegularWave α)
    (info0 infob : RegularWaveInfo α) (b i : Nat) (omega_max : α) (line : List α)
    (hinfo0 : s.info[0]? = some info0) (hlast : info0.freq_list.getLast? = some omega_max)
    (hN : 2 ≤ info0.freq_list.length)
    (hdelta : fl (omega_max / (info0.freq_list.length : α)) ≠ 0)
    (hinfo : s.info[b]? = some infob)
    (hline : (infob.excitation_mag_matrix[i]?).bind (fun plane => plane[0]?) = some line)
    (hlen : line.length = info0.freq_list.length) :
    ∃ x : α, s.freq_index_des fl = some x ∧
      x = fl (fl (s.regular_wave_omega / fl (omega_max / (info0.freq_list.length : α))) - 1) ∧
      (((readAt line ⌊x⌋).isSome ∧ (readAt line (⌊x⌋ + 1)).isSome) ↔
        (0 ≤ x ∧ x < (info0.freq_list.length : α) - 1)) ∧
      ((s.GetExcitationMagInterp b i 0 x).isSome ↔
        (0 ≤ x ∧ x < (info0.freq_list.length : α) - 1)) ∧
      ((∀ y, fl y = y) → 0 < omega_max →
        ((0 ≤ x ∧ x < (info0.freq_list.length : α) - 1) ↔
          (omega_max / (info0.freq_list.length : α) ≤ s.regular_wave_omega ∧
            s.regular_wave_omega < omega_max))) := by
  have hreads := interp_reads_valid_iff line
    (fl (fl (s.regular_wave_omega / fl (omega_max / (info0.freq_list.length : α))) - 1))
    info0.freq_list.length hlen
  refine ⟨_, freq_index_des_eq fl s info0 omega_max hinfo0 hlast hdelta, rfl, hreads,
    (GetExcitationMagInterp_isSome_iff s infob b i line _ hinfo hline).trans hreads, ?_⟩
  intro hid hmax
  rw [hid, hid, hid]
  obtain ⟨hk, hk1⟩ := interp_index_bounds info0.freq_list.length s.regular_wave_omega omega_max
    (by omega) hmax
  have h0 : 0 ≤ ⌊s.regular_wave_omega / (omega_max / (info0.freq_list.length : α)) - 1⌋ ↔
      0 ≤ s.regular_wave_omega / (omega_max / (info0.freq_list.length : α)) - 1 :=
    Int.floor_nonneg
  have h1 : ⌊s.regular_wave_omega / (omega_max / (info0.freq_list.length : α)) - 1⌋ + 1 <
        (info0.freq_list.length : Int) ↔
      s.regular_wave_omega / (omega_max / (info0.freq_list.length : α)) - 1 <
        (info0.freq_list.length : α) - 1 := by
    have h2 : ⌊s.regular_wave_omega / (omega_max / (info0.freq_list.length : α)) - 1⌋ + 1 <
        (info0.freq_list.length : Int) ↔
        ⌊s.regular_wave_omega / (omega_max / (info0.freq_list.length : α)) - 1⌋ <
          (info0.freq_list.length : Int) - 1 := by omega
    rw [h2, Int.floor_lt]
    push_cast
    rfl
  rw [← h0, ← h1, hk, hk1]

/-- C17 (witness): the tabulated provider (frequencies `1, 2, 3`, target frequency `5/2`) in
double arithmetic. -/
theorem RegularWave_table_reads_valid_iff_witness :
    ∃ x : ℚ, tabulatedRegular.freq_index_des binary64 = some x ∧
      x = binary64 (binary64 (tabulatedRegular.regular_wave_omega /
        binary64 (3 / (tabulatedInfo.freq_list.length : ℚ))) - 1) ∧
      (((readAt [(10 : ℚ), 20, 30] ⌊x⌋).isSome ∧ (readAt [(10 : ℚ), 20, 30] (⌊x⌋ + 1)).isSome) ↔
        (0 ≤ x ∧ x < (tabulatedInfo.freq_list.length : ℚ) - 1)) ∧
      ((tabulatedRegular.GetExcitationMagInterp 0 0 0 x).isSome ↔
        (0 ≤ x ∧ x < (tabulatedInfo.freq_list.length : ℚ) - 1)) ∧
      ((∀ y : ℚ, binary64 y = y) → (0 : ℚ) < 3 →
        ((0 ≤ x ∧ x < (tabulatedInfo.freq_list.length : ℚ) - 1) ↔
          (3 / (tabulatedInfo.freq_list.length : ℚ) ≤ tabulatedRegular.regular_wave_omega ∧
            tabulatedRegular.regular_wave_omega < 3))) :=
  RegularWave_table_reads_valid_iff binary64 tabulatedRegular tabulatedInfo tabulatedInfo 0 0 3
    [10, 20, 30] rfl rfl (by simp [tabulatedInfo])
    (by
      have h := binary64_representable (α := ℚ) 1 0 (by norm_num) (by norm_num)
      have e : ((1 : Int) : ℚ) * 2 ^ (0 : Int) = 3 / (tabulatedInfo.freq_list.length : ℚ) := by
        norm_num [tabulatedInfo]
      rw [e] at h
      rw [h]
      norm_num [tabulatedInfo])
    rfl rfl rfl

/-! ## `IrregularWave::CreateFreeSurfaceElevation`: the time grid -/

/-- The time grid of `CreateFreeSurfaceElevation`, with the monadic steps spelled out. -/
theorem time_index_unfold (fl : α → α) (s : IrregularWave α) :
    s.CreateFreeSurfaceElevation_time_index fl =
      if s.simulation_dt = 0 then none else
        (truncToInt (fl (s.simulation_duration / s.simulation_dt))).bind fun q =>
          if 0 ≤ q + 1 ∧ q + 1 < 2 ^ 31 then
            some (LinSpaced (q + 1).toNat 0 s.simulation_duration)
          else none := by
  simp only [IrregularWave.CreateFreeSurfaceElevation_time_index, Option.bind_eq_bind,
    Option.pure_def]

/-- The conversion to `int` of a natural number below `2 ^ 31`. -/
theorem truncToInt_natCast (m : Nat) (h : m < 2 ^ 31) : truncToInt (m : α) = some (m : Int) := by
  unfold truncToInt
  simp only [Nat.cast_nonneg, if_true, Int.floor_natCast]
  have h1 : -(2 : Int) ^ 31 ≤ (m : Int) ∧ (m : Int) < 2 ^ 31 := by
    constructor
    · have h2 : -(2 : Int) ^ 31 ≤ 0 := by norm_num
      exact le_trans h2 (Int.ofNat_nonneg m)
    · exact_mod_cast h
  rw [if_pos h1]

/-- The conversion to `int` of a double that is not negative is its floor. -/
theorem truncToInt_of_floor (x : α) (z : Int) (hx : 0 ≤ x) (hf : ⌊x⌋ = z)
    (hr : -(2 : Int) ^ 31 ≤ z ∧ z < 2 ^ 31) : truncToInt x = some z := by
  unfold truncToInt
  simp only [if_pos hx, hf]
  rw [if_pos hr]

/-- The time grid when the rounded quotient truncates to `m`. -/
theorem time_index_of_trunc (fl : α → α) (s : IrregularWave α) (m : Nat)
    (hdt : s.simulation_dt ≠ 0)
    (htr : truncToInt (fl (s.simulation_duration / s.simulation_dt)) = some (m : Int))
    (hfit : m + 1 < 2 ^ 31) :
    s.CreateFreeSurfaceElevation_time_index fl =
      some (LinSpaced (m + 1) 0 s.simulation_duration) := by
  have hnum : 0 ≤ (m : Int) + 1 ∧ (m : Int) + 1 < 2 ^ 31 := by
    constructor
    · omega
    · exact_mod_cast hfit
  have hto : ((m : Int) + 1).toNat = m + 1 := by omega
  rw [time_index_unfold, if_neg hdt, htr, Option.some_bind, if_pos hnum, hto]

/-- A natural number below `2 ^ 53` is a binary64 number. -/
theorem binary64_natCast (m : Nat) (h : m < 2 ^ 53) : binary64 (m : α) = (m : α) := by
  have hm : |(m : Int)| < 2 ^ 53 := by
    rw [abs_of_nonneg (Int.ofNat_nonneg m)]
    exact_mod_cast h
  have h1 := binary64_representable (α := α) (m : Int) 0 hm (by norm_num)
  simpa using h1

/-- C16 (counterexample): in double arithmetic.  For `simulation_dt = 2` and
`simulation_duration = 3` the quotient `1.5` is a double, the grid has `1 + 1 = 2` samples,
`0` and `3`: sample 1 is at `3`, not at `1 * 2`.  For the doubles nearest to `0.1` and `0.3`
the quotient rounds to `2.9999999999999996`, the grid has 3 samples and sample 1 is at
`0.15`, not at `0.1`. -/
theorem time_index_step_differs :
    ((blankIrregular (2 : ℚ) 3).CreateFreeSurfaceElevation_time_index binary64 = some [0, 3] ∧
      ([0, 3] : List ℚ)[1]? ≠ some (1 * 2)) ∧
    ((blankIrregular (3602879701896397 / 2 ^ 55 : ℚ)
        (5404319552844595 / 2 ^ 54)).CreateFreeSurfaceElevation_time_index binary64 =
      some [0, 5404319552844595 / 2 ^ 55, 5404319552844595 / 2 ^ 54] ∧
      ([0, 5404319552844595 / 2 ^ 55, 5404319552844595 / 2 ^ 54] : List ℚ)[1]? ≠
        some (1 * (3602879701896397 / 2 ^ 55))) := by
  have hq1 : binary64 ((3 : ℚ) / 2) = 3 / 2 := by
    have h := binary64_representable (α := ℚ) 3 (-1) (by norm_num) (by norm_num)
    have e : ((3 : Int) : ℚ) * 2 ^ (-1 : Int) = 3 / 2 := by norm_num
    rw [e] at h
    exact h
  have hf1 : ⌊(3 / 2 : ℚ)⌋ = 1 := by
    rw [Int.floor_eq_iff]
    norm_num
  have hq2 : binary64 ((5404319552844595 / 2 ^ 54 : ℚ) / (3602879701896397 / 2 ^ 55)) =
      6755399441055743 / 2 ^ 51 := by
    have h := binary64_of_near ((5404319552844595 / 2 ^ 54 : ℚ) / (3602879701896397 / 2 ^ 55))
      1 6755399441055743 (by norm_num)
      (by rw [abs_of_pos (by positivity)]; norm_num)
      (by rw [abs_of_pos (by positivity)]; norm_num)
      (by rw [abs_lt]; norm_num)
    rw [h]
    norm_num
  have hf2 : ⌊(6755399441055743 / 2 ^ 51 : ℚ)⌋ = 2 := by
    rw [Int.floor_eq_iff]
    norm_num
  refine ⟨⟨?_, by norm_num⟩, ?_, by norm_num⟩
  · rw [time_index_of_trunc binary64 _ 1 (by norm_num [blankIrregular]) ?_ (by norm_num)]
    · simp [LinSpaced, List.range_succ, blankIrregular]
    · show truncToInt (binary64 ((3 : ℚ) / 2)) = some ((1 : Nat) : Int)
      rw [hq1]
      exact truncToInt_of_floor _ _ (by norm_num) hf1 (by norm_num)
  · rw [time_index_of_trunc binary64 _ 2 (by norm_num [blankIrregular]) ?_ (by norm_num)]
    · simp [LinSpaced, List.range_succ, blankIrregular]
      norm_num
    · show truncToInt (binary64 ((5404319552844595 / 2 ^ 54 : ℚ) /
        (3602879701896397 / 2 ^ 55))) = some ((2 : Nat) : Int)
      rw [hq2]
      exact truncToInt_of_floor _ _ (by positivity) hf2 (by norm_num)

/-- C16 (amended): for `simulation_dt > 0`, let `m >= 1` be the integer part of the quotient
`simulation_duration / simulation_dt` as the code computes it (rounded by `fl`), with `m + 1`
in the range of `int`.  The time grid of `CreateFreeSurfaceElevation` has `m + 1` samples,
the first at 0 and the last at `simulation_duration`, and its `i`-th sample is
`i * (simulation_duration / m)`: the step is `simulation_duration / m`.  It is
`simulation_dt` exactly when `simulation_duration = m * simulation_dt`, and then the `i`-th
sample is `i * simulation_dt`. -/
theorem time_index_uniform (fl : α → α) (s : IrregularWave α) (m : Nat) (hm : 1 ≤ m)
    (hdt : 0 < s.simulation_dt)
    (htr : truncToInt (fl (s.simulation_duration / s.simulation_dt)) = some (m : Int))
    (hfit : m + 1 < 2 ^ 31) :
    ∃ g : List α, s.CreateFreeSurfaceElevation_time_index fl = some g ∧ g.length = m + 1 ∧
      g[0]? = some 0 ∧ g[m]? = some s.simulation_duration ∧
      (∀ i : Nat, i ≤ m → g[i]? = some ((i : α) * (s.simulation_duration / (m : α)))) ∧
      (s.simulation_duration = (m : α) * s.simulation_dt →
        ∀ i : Nat, i ≤ m → g[i]? = some ((i : α) * s.simulation_dt)) := by
  have hmne : (m : α) ≠ 0 := Nat.cast_ne_zero.mpr (by omega)
  have hval : ∀ i : Nat, i ≤ m →
      (LinSpaced (m + 1) 0 s.simulation_duration)[i]? =
        some ((i : α) * (s.simulation_duration / (m : α))) := by
    intro i hi
    unfold LinSpaced
    rw [List.getElem?_map, List.getElem?_range (by omega), Option.map_some']
    by_cases hlast : i + 1 = m + 1
    · rw [if_pos hlast]
      have : i = m := by omega
      rw [this]
      congr 1
      field_simp
    · rw [if_neg hlast]
      congr 1
      push_cast
      field_simp
  refine ⟨LinSpaced (m + 1) 0 s.simulation_duration,
    time_index_of_trunc fl s m (ne_of_gt hdt) htr hfit, by simp [LinSpaced], ?_, ?_, hval, ?_⟩
  · rw [hval 0 (by omega)]
    simp
  · rw [hval m (le_refl m)]
    congr 1
    field_simp
  · intro hdur i hi
    rw [hval i hi, hdur]
    congr 1
    field_simp

/-- In double arithmetic a duration that is a whole multiple `m * simulation_dt` of the step
(`m >= 1`, `m + 1` in the range of `int`) gives the quotient `m` without rounding, and the
`i`-th sample of the time grid is `i * simulation_dt`. -/
theorem time_index_binary64_of_multiple (s : IrregularWave α) (m : Nat) (hm : 1 ≤ m)
    (hdt : 0 < s.simulation_dt) (hdur : s.simulation_duration = (m : α) * s.simulation_dt)
    (hfit : m + 1 < 2 ^ 31) :
    ∃ g : List α, s.CreateFreeSurfaceElevation_time_index binary64 = some g ∧
      g.length = m + 1 ∧ ∀ i : Nat, i ≤ m → g[i]? = some ((i : α) * s.simulation_dt) := by
  have hq : s.simulation_duration / s.simulation_dt = (m : α) := by
    rw [hdur, mul_div_assoc, div_self (ne_of_gt hdt), mul_one]
  have htr : truncToInt (binary64 (s.simulation_duration / s.simulation_dt)) =
      some (m : Int) := by
    rw [hq, binary64_natCast m (by omega)]
    exact truncToInt_natCast m (by omega)
  have hmne : (m : α) ≠ 0 := Nat.cast_ne_zero.mpr (by omega)
  refine ⟨LinSpaced (m + 1) 0 s.simulation_duration,
    time_index_of_trunc binary64 s m (ne_of_gt hdt) htr hfit, by simp [LinSpaced], ?_⟩
  intro i hi
  unfold LinSpaced
  rw [List.getElem?_map, List.getElem?_range (by omega), Option.map_some']
  by_cases hlast : i + 1 = m + 1
  · rw [if_pos hlast, hdur]
    have : i = m := by omega
    rw [this]
  · rw [if_neg hlast, hdur]
    congr 1
    push_cast
    field_simp

/-- C16 (witness): `simulation_dt` the double nearest to `0.05` and
`simulation_duration = 60`, in double arithmetic: the quotient rounds to 1200 and the grid
has 1201 samples. -/
theorem time_index_uniform_witness :
    ∃ g : List ℚ, (blankIrregular (3602879701896397 / 2 ^ 56 : ℚ)
        60).CreateFreeSurfaceElevation_time_index binary64 = some g ∧ g.length = 1200 + 1 ∧
      g[0]? = some 0 ∧
      g[1200]? = some (blankIrregular (3602879701896397 / 2 ^ 56 : ℚ) 60).simulation_duration ∧
      (∀ i : Nat, i ≤ 1200 → g[i]? = some ((i : ℚ) *
        ((blankIrregular (3602879701896397 / 2 ^ 56 : ℚ) 60).simulation_duration /
          ((1200 : Nat) : ℚ)))) ∧
      ((blankIrregular (3602879701896397 / 2 ^ 56 : ℚ) 60).simulation_duration =
          ((1200 : Nat) : ℚ) * (blankIrregular (3602879701896397 / 2 ^ 56 : ℚ) 60).simulation_dt →
        ∀ i : Nat, i ≤ 1200 → g[i]? = some ((i : ℚ) *
          (blankIrregular (3602879701896397 / 2 ^ 56 : ℚ) 60).simulation_dt)) :=
  time_index_uniform binary64 (blankIrregular (3602879701896397 / 2 ^ 56 : ℚ) 60) 1200
    (by norm_num) (by norm_num [blankIrregular])
    (by
      have h := binary64_of_near ((60 : ℚ) / (3602879701896397 / 2 ^ 56)) 10 5277655813324800
        (by norm_num)
        (by rw [abs_of_pos (by positivity)]; norm_num)
        (by rw [abs_of_pos (by positivity)]; norm_num)
        (by rw [abs_lt]; norm_num)
      have h2 : binary64 ((60 : ℚ) / (3602879701896397 / 2 ^ 56)) = ((1200 : Nat) : ℚ) := by
        rw [h]
        norm_num
      show truncToInt (binary64 ((60 : ℚ) / (3602879701896397 / 2 ^ 56))) = _
      rw [h2]
      exact truncToInt_natCast 1200 (by norm_num))
    (by norm_num)

/-! ## `IrregularWave::ExcitationConvolution`: bounds of the reads -/

/-- C15 (the code at the failing input): lag axis `[0, 1]`, `simulation_dt = 1`, three
elevation samples, query time `1/2`.  The lag 0 is inside the window (`0 < 1/2 < 3`), its
`eta_index` is `floor(1/2) = 0`, the index read is `0 - 1 = -1`, which is outside
`[0, len(eta))`, and the call has no defined value.  Second input: two bodies whose lag axes
have 3 and 2 samples; for body 1 the loop runs over the 3 lags of body 0 and reads column 2
of a matrix with 2 columns. -/
theorem ExcitationConvolution_reads_before_eta :
    (unitLagState.ex_irf_time_resampled[0]? = some [0, 1] ∧
      ((0 : ℚ) < 1 / 2 - 0 ∧ (1 / 2 : ℚ) - 0 <
        (unitLagState.eta.length : ℚ) * unitLagState.simulation_dt) ∧
      ((⌊((1 / 2 : ℚ) - 0) / unitLagState.simulation_dt⌋.toNat : Int) - 1 = -1) ∧
      readAt unitLagState.eta (-1) = none ∧
      unitLagState.ExcitationConvolution 0 0 (1 / 2) = none) ∧
    ((unevenLagState.ex_irf_resampled[1]?).bind (fun m => matAt m 0 2) = none ∧
      unevenLagState.ExcitationConvolution 1 0 (7 / 2) = none ∧
      unevenLagState.ExcitationConvolution 0 0 (7 / 2) = some 6) := by
  have hf : ⌊(1 / 2 : ℚ)⌋ = 0 := by
    rw [Int.floor_eq_iff]
    norm_num
  have h3 : ⌊(7 / 2 : ℚ)⌋ = 3 := by
    rw [Int.floor_eq_iff]
    norm_num
  have h2 : ⌊(5 / 2 : ℚ)⌋ = 2 := by
    rw [Int.floor_eq_iff]
    norm_num
  have h1 : ⌊(3 / 2 : ℚ)⌋ = 1 := by
    rw [Int.floor_eq_iff]
    norm_num
  refine ⟨⟨rfl, ?_, ?_, ?_, ?_⟩, ?_, ?_, ?_⟩
  · norm_num [unitLagState]
  · norm_num [unitLagState, hf]
  · simp [readAt]
  · simp [IrregularWave.ExcitationConvolution, unitLagState, loop, List.range_succ, matAt,
      readAt]
    norm_num [hf]
    intro a ha
    exact absurd ha (by simp)
  · simp [unevenLagState, matAt, List.replicate]
  · simp [IrregularWave.ExcitationConvolution, unevenLagState, loop, List.range_succ, matAt,
      readAt, List.replicate]
  · simp [IrregularWave.ExcitationConvolution, unevenLagState, loop, List.range_succ, matAt,
      readAt, List.replicate]
    norm_num [h3, h2, h1]
    have t3 : Int.toNat 3 - 1 = 2 := rfl
    have t2 : Int.toNat 2 - 1 = 1 := rfl
    rw [t3, t2]
    norm_num

/-! ## `IrregularWave::ResampleVals` and `IrregularWave::Initialize` -/

end HydroChrono
